import Mathlib

/-!
Verification of the mkvideo declarative-video compiler (TypeScript sources under
`apps/renderer/src`) against its natural-language specification.

The development shallowly embeds the relevant TypeScript functions in Lean:
pure functions become Lean functions, JavaScript numbers are idealised as exact
rationals (`ℚ`) except that the special values `Infinity`, `-Infinity` and `NaN`
are modelled explicitly by the `JSNum` type, fallible code returns `Except`,
and external effects (the `ffprobe` subprocess, the headless browser, the file
system) are passed in as explicit data.
-/

namespace MkVideo

/-! ## JavaScript number model

JavaScript numbers are IEEE doubles; we idealise the finite values as exact
rationals and keep the three special values explicit, which is what the
expression evaluator and `parseFloat` call sites need. -/

/-- A JavaScript number: a finite (idealised exact) value, an infinity, or NaN. -/
inductive JSNum : Type
  | finite (q : ℚ)
  | posInf
  | negInf
  | nan
  deriving DecidableEq, Repr

namespace JSNum

instance : OfNat JSNum n := ⟨JSNum.finite n⟩

/-- JavaScript `+` on numbers. -/
def jsAdd : JSNum → JSNum → JSNum
  | nan, _ => nan
  | _, nan => nan
  | posInf, negInf => nan
  | negInf, posInf => nan
  | posInf, _ => posInf
  | _, posInf => posInf
  | negInf, _ => negInf
  | _, negInf => negInf
  | finite a, finite b => finite (a + b)

/-- JavaScript unary `-`. -/
def jsNeg : JSNum → JSNum
  | nan => nan
  | posInf => negInf
  | negInf => posInf
  | finite a => finite (-a)

/-- JavaScript binary `-`. -/
def jsSub (a b : JSNum) : JSNum := jsAdd a (jsNeg b)

/-- JavaScript `*` on numbers. -/
def jsMul : JSNum → JSNum → JSNum
  | nan, _ => nan
  | _, nan => nan
  | finite a, finite b => finite (a * b)
  | finite a, posInf => if a > 0 then posInf else if a < 0 then negInf else nan
  | finite a, negInf => if a > 0 then negInf else if a < 0 then posInf else nan
  | posInf, finite b => if b > 0 then posInf else if b < 0 then negInf else nan
  | negInf, finite b => if b > 0 then negInf else if b < 0 then posInf else nan
  | posInf, posInf => posInf
  | posInf, negInf => negInf
  | negInf, posInf => negInf
  | negInf, negInf => posInf

/-- JavaScript `/` on numbers.  Division by zero produces an infinity (or NaN
for `0/0`); it never throws. -/
def jsDiv : JSNum → JSNum → JSNum
  | nan, _ => nan
  | _, nan => nan
  | finite a, finite b =>
      if b = 0 then (if a > 0 then posInf else if a < 0 then negInf else nan)
      else finite (a / b)
  | finite _, posInf => finite 0
  | finite _, negInf => finite 0
  | posInf, finite b => if b < 0 then negInf else posInf
  | negInf, finite b => if b < 0 then posInf else negInf
  | posInf, posInf => nan
  | posInf, negInf => nan
  | negInf, posInf => nan
  | negInf, negInf => nan

/-- JavaScript `Math.round`: half-up rounding (towards `+∞`). -/
def jsRound : JSNum → JSNum
  | nan => nan
  | posInf => posInf
  | negInf => negInf
  | finite q => finite (⌊q + 1/2⌋ : ℤ)

end JSNum

/-! ## Character classes and `parseFloat`

The character predicates mirror the JavaScript regexp classes used by the
sources (`\d`, `\w`, `\s`). -/

/-- The regexp class `\d` (`'0' ≤ c ≤ '9'`, by ASCII code). -/
def isDigitCh (c : Char) : Bool := 48 ≤ c.toNat && c.toNat ≤ 57

/-- The regexp class `\w` (ASCII word character: digit, letter, or `_`). -/
def isWordCh (c : Char) : Bool :=
  (48 ≤ c.toNat && c.toNat ≤ 57) || (97 ≤ c.toNat && c.toNat ≤ 122) ||
  (65 ≤ c.toNat && c.toNat ≤ 90) || c.toNat = 95

/-- The regexp class `\s`, restricted to the ASCII whitespace the project ever
feeds it (space, tab, newline, carriage return). -/
def isSpaceCh (c : Char) : Bool :=
  c.toNat = 32 || c.toNat = 9 || c.toNat = 10 || c.toNat = 13

/-- Numeric value of a decimal digit character. -/
def digitVal (c : Char) : ℕ := c.toNat - 48

/-- Value of a most-significant-first list of decimal digit characters. -/
def digitsVal (cs : List Char) : ℕ := cs.foldl (fun a c => 10 * a + digitVal c) 0

/-- The numeric value denoted by an integer digit run `ds` and a fractional
digit run `fs` (the value of the source text `ds ++ "." ++ fs`). -/
def decimalVal (ds fs : List Char) : ℚ :=
  (digitsVal ds : ℚ) + (digitsVal fs : ℚ) / 10 ^ fs.length

/-- Consume an optional leading sign, returning the sign and the rest. -/
def signSplit (l : List Char) : ℚ × List Char :=
  match l with
  | c :: t => if c = '+' then (1, t) else if c = '-' then (-1, t) else (1, c :: t)
  | [] => (1, [])

/-- Whether the list starts with the literal `Infinity`. -/
def hasInfinityPrefix (l : List Char) : Bool :=
  l.take 8 == ['I', 'n', 'f', 'i', 'n', 'i', 't', 'y']

/-- Consume an optional fraction `.digits`, returning the fraction digits and
the rest. -/
def dotSplit (l1 : List Char) : List Char × List Char :=
  match l1 with
  | c :: t =>
    if c = '.' then (t.takeWhile isDigitCh, t.dropWhile isDigitCh)
    else ([], c :: t)
  | [] => ([], [])

/-- Consume an optional signed exponent sign, returning the sign and rest. -/
def expSignSplit (l : List Char) : ℤ × List Char :=
  match l with
  | c :: t => if c = '+' then (1, t) else if c = '-' then (-1, t) else (1, c :: t)
  | [] => (1, [])

/-- The exponent value of an optional trailing `[eE][+-]?digits` (0 when
absent or malformed, which `parseFloat` ignores). -/
def expSplit (l2 : List Char) : ℤ :=
  match l2 with
  | c :: t =>
    if c = 'e' ∨ c = 'E' then
      let sp := expSignSplit t
      let es := sp.2.takeWhile isDigitCh
      if es.isEmpty then 0 else sp.1 * (digitsVal es : ℤ)
    else 0
  | [] => 0

/-- JavaScript `parseFloat`: skip leading whitespace, then read the longest
prefix of the form `[+-]? (Infinity | digits [. digits] | . digits) exponent?`;
return `none` (NaN) when no such prefix exists. -/
def jsParseFloat (s : String) : Option JSNum :=
  let sp := signSplit (s.toList.dropWhile isSpaceCh)
  let sign := sp.1
  let l := sp.2
  if hasInfinityPrefix l then
    some (if sign = 1 then JSNum.posInf else JSNum.negInf)
  else
    let ds := l.takeWhile isDigitCh
    let fr := dotSplit (l.dropWhile isDigitCh)
    let fs := fr.1
    if ds.isEmpty && fs.isEmpty then none
    else some (JSNum.finite (sign * decimalVal ds fs * (10 : ℚ) ^ expSplit fr.2))

/-- JavaScript `String.prototype.trim` (ASCII whitespace). -/
def jsTrim (s : String) : String :=
  String.mk ((s.toList.dropWhile isSpaceCh).reverse.dropWhile isSpaceCh |>.reverse)

/-! ## `getAssetDuration` (ffprobe.ts / project.ts)

The probe call is embedded as its observable outcome: `Except String String`
is either the subprocess failure (file missing, exec error) or the probe's
stdout.  The TypeScript function `try`/`catch`es around the call and never
rethrows, so the embedding returns `Except String ℚ` whose `.error` case
would correspond to an exception escaping the function. -/

/-- Asset kinds, from `type.ts`. -/
inductive AssetType | video | image | audio
  deriving DecidableEq, Repr

/-- `getAssetDuration` from `project.ts` (the `ffprobe.ts` variant is the same
without the `type` short-circuit): images get duration 0 without probing; a
probe failure or unparsable stdout is logged and mapped to 0; otherwise the
result is `Math.round(seconds * 1000)` milliseconds. -/
def getAssetDuration (type : AssetType) (probe : Except String String) :
    Except String JSNum :=
  if type = AssetType.image then Except.ok (JSNum.finite 0)
  else
    match probe with
    | Except.error _ => Except.ok (JSNum.finite 0)
    | Except.ok stdout =>
      match jsParseFloat (jsTrim stdout) with
      | none => Except.ok (JSNum.finite 0)
      | some sec => Except.ok (JSNum.jsRound (JSNum.jsMul sec (JSNum.finite 1000)))

/-! ## SHA-256 and the overlay cache keys

`duration-resolver.ts` (container renderer) and `app-renderer.ts` derive the
content-addressed PNG cache key as the first 16 hex digits of a SHA-256 over a
sequence of `hash.update(...)` calls, i.e. over the concatenation of the
updated strings (UTF-8 bytes).  SHA-256 itself is implemented below so the
keys are fully concrete. -/

/-- Truncate to a 32-bit word. -/
def w32 (x : ℕ) : ℕ := x % 4294967296

/-- 32-bit right rotation. -/
def rotr32 (n x : ℕ) : ℕ := w32 ((x >>> n) ||| (x <<< (32 - n)))

/-- The SHA-256 round constants. -/
def shaK : List ℕ := [
  1116352408, 1899447441, 3049323471, 3921009573, 961987163, 1508970993,
  2453635748, 2870763221, 3624381080, 310598401, 607225278, 1426881987,
  1925078388, 2162078206, 2614888103, 3248222580, 3835390401, 4022224774,
  264347078, 604807628, 770255983, 1249150122, 1555081692, 1996064986,
  2554220882, 2821834349, 2952996808, 3210313671, 3336571891, 3584528711,
  113926993, 338241895, 666307205, 773529912, 1294757372, 1396182291,
  1695183700, 1986661051, 2177026350, 2456956037, 2730485921, 2820302411,
  3259730800, 3345764771, 3516065817, 3600352804, 4094571909, 275423344,
  430227734, 506948616, 659060556, 883997877, 958139571, 1322822218,
  1537002063, 1747873779, 1955562222, 2024104815, 2227730452, 2361852424,
  2428436474, 2756734187, 3204031479, 3329325298]

/-- The SHA-256 initial hash state. -/
def shaH0 : List ℕ := [
  1779033703, 3144134277, 1013904242, 2773480762,
  1359893119, 2600822924, 528734635, 1541459225]

/-- Big-endian byte decomposition (`count` bytes). -/
def bytesBE (count x : ℕ) : List ℕ :=
  (List.range count).map (fun i => (x >>> (8 * (count - 1 - i))) % 256)

/-- SHA-256 message padding. -/
def shaPad (msg : List ℕ) : List ℕ :=
  let L := msg.length
  let zeros := (64 - ((L + 9) % 64)) % 64
  msg ++ [0x80] ++ List.replicate zeros 0 ++ bytesBE 8 (8 * L)

/-- Split into 64-byte blocks. -/
def toBlocks (l : List ℕ) : List (List ℕ) :=
  if l.isEmpty then []
  else l.take 64 :: toBlocks (l.drop 64)
  termination_by l.length
  decreasing_by
    cases l with
    | nil => simp_all
    | cons a t => simp [List.length_drop]; omega

/-- The 16 big-endian message words of a block. -/
def wordsOf (block : List ℕ) : List ℕ :=
  (List.range 16).map (fun i =>
    (block.getD (4*i) 0) <<< 24 ||| (block.getD (4*i+1) 0) <<< 16 |||
    (block.getD (4*i+2) 0) <<< 8 ||| block.getD (4*i+3) 0)

/-- SHA-256 small sigma 0. -/
def sigma0 (x : ℕ) : ℕ := (rotr32 7 x) ^^^ (rotr32 18 x) ^^^ (x >>> 3)

/-- SHA-256 small sigma 1. -/
def sigma1 (x : ℕ) : ℕ := (rotr32 17 x) ^^^ (rotr32 19 x) ^^^ (x >>> 10)

/-- Message-schedule extension from 16 to 64 words. -/
def extendW (w : List ℕ) : List ℕ :=
  (List.range 48).foldl (fun w i =>
    w ++ [w32 (w.getD i 0 + sigma0 (w.getD (i + 1) 0) +
               w.getD (i + 9) 0 + sigma1 (w.getD (i + 14) 0))]) w

/-- SHA-256 big sigma 1. -/
def bigSigma1 (x : ℕ) : ℕ := (rotr32 6 x) ^^^ (rotr32 11 x) ^^^ (rotr32 25 x)

/-- SHA-256 big sigma 0. -/
def bigSigma0 (x : ℕ) : ℕ := (rotr32 2 x) ^^^ (rotr32 13 x) ^^^ (rotr32 22 x)

/-- One SHA-256 compression round over a block. -/
def compressBlock (h : List ℕ) (block : List ℕ) : List ℕ :=
  let w := extendW (wordsOf block)
  let st := (List.range 64).foldl (fun (st : List ℕ) i =>
    match st with
    | [a, b, c, d, e, f, g, hh] =>
      let ch := (e &&& f) ^^^ ((4294967295 - e) &&& g)
      let temp1 := w32 (hh + bigSigma1 e + ch + shaK.getD i 0 + w.getD i 0)
      let maj := (a &&& b) ^^^ (a &&& c) ^^^ (b &&& c)
      let temp2 := w32 (bigSigma0 a + maj)
      [w32 (temp1 + temp2), a, b, c, w32 (d + temp1), e, f, g]
    | st => st) h
  (List.zip h st).map (fun (x, y) => w32 (x + y))

/-- SHA-256 digest bytes of a byte string. -/
def sha256Bytes (msg : List ℕ) : List ℕ :=
  let hFinal := (toBlocks (shaPad msg)).foldl compressBlock shaH0
  hFinal.flatMap (bytesBE 4)

/-- Lower-case hex digit. -/
def hexDigit (n : ℕ) : Char :=
  if n < 10 then Char.ofNat (48 + n) else Char.ofNat (87 + n)

/-- Two hex digits of a byte. -/
def byteHex (b : ℕ) : List Char := [hexDigit (b / 16), hexDigit (b % 16)]

/-- UTF-8 bytes of a string (what `hash.update(string)` feeds the hash). -/
def strBytes (s : String) : List ℕ := s.toUTF8.toList.map UInt8.toNat

/-- `createHash('sha256')` with a sequence of `update` calls followed by
`digest('hex').substring(0, 16)`: the first 16 hex digits (8 bytes) of the
SHA-256 of the concatenated updates. -/
def hashHex16 (updates : List String) : String :=
  String.mk (((sha256Bytes ((updates.map strBytes).flatten)).take 8).flatMap byteHex)

/-- `JSON.stringify` on a string-to-string record, in property insertion
order.  (String escaping is omitted; no theorem below depends on it.) -/
def jsonStringifyRecord (params : List (String × String)) : String :=
  "\x7b" ++ String.intercalate ","
    (params.map (fun p => "\"" ++ p.1 ++ "\":\"" ++ p.2 ++ "\"")) ++ "\x7d"

/-- `generateCacheKey` from `duration-resolver.ts` (container renderer): the
key is computed over the container HTML and the CSS text only. -/
def generateCacheKey (containerHtml cssText : String) : String :=
  hashHex16 [containerHtml, cssText]

/-- Options of `renderContainer` (`RenderContainerOptions`). -/
structure RenderContainerOptions where
  containerHtml : String
  cssText : String
  width : ℕ
  height : ℕ
  deriving Repr

/-- The cache key `renderContainer` computes for its options:
`generateCacheKey(container.htmlContent, cssText)` — the width and height of
the options are not part of the key. -/
def renderContainerCacheKey (o : RenderContainerOptions) : String :=
  generateCacheKey o.containerHtml o.cssText

/-- `generateAppCacheKey` from `app-renderer.ts`: hashes, in order, the app
source path, the JSON-stringified parameters, the title, the date (empty
string when absent), the comma-joined tags, and the output name. -/
def generateAppCacheKey (src : String) (parameters : List (String × String))
    (title : String) (date : Option String) (tags : List String)
    (outputName : String) : String :=
  hashHex16 [src, jsonStringifyRecord parameters, title, date.getD "",
             String.intercalate "," tags, outputName]

/-- Options of `renderApp` (`RenderAppOptions`), data part. -/
structure RenderAppOptions where
  appId : String
  appSrc : String
  appParameters : List (String × String)
  width : ℕ
  height : ℕ
  outputName : String
  title : String
  date : Option String
  tags : List String
  deriving Repr

/-- The cache key `renderApp` computes for its options — the width and height
of the options are not part of the key. -/
def renderAppCacheKey (o : RenderAppOptions) : String :=
  generateAppCacheKey o.appSrc o.appParameters o.title o.date o.tags o.outputName

/-! ## Decimal rendering of numbers

`toString` on a JavaScript number with a finite decimal expansion prints the
minimal decimal form; `qToDecStr` reproduces it for the (terminating) rationals
the compiler produces. -/

/-- Fuel-bounded fractional digit expansion of `r ∈ [0, 1)`. -/
def fracDigits : ℕ → ℚ → List Char
  | 0, _ => []
  | fuel + 1, r =>
    if r = 0 then []
    else
      let r10 := r * 10
      let d := (⌊r10⌋ : ℤ).toNat
      Char.ofNat (48 + d) :: fracDigits fuel (r10 - (d : ℚ))

/-- Minimal decimal rendering of a rational (JavaScript `String(x)` for
numbers with a short terminating expansion). -/
def qToDecStr (q : ℚ) : String :=
  let sgn := if q < 0 then "-" else ""
  let a : ℚ := |q|
  let ip := (⌊a⌋ : ℤ).toNat
  let frac := fracDigits 20 (a - (ip : ℚ))
  sgn ++ toString ip ++ (if frac.isEmpty then "" else "." ++ String.mk frac)

/-! ## Project data model (`type.ts`) -/

/-- A fragment of a sequence, from `type.ts`. -/
structure Fragment where
  assetName : String
  assetType : AssetType
  duration : ℚ          -- milliseconds
  overlayLeft : ℚ       -- milliseconds; negative slides backwards (cross-fade)
  overlayRight : ℚ
  blendModeLeft : String
  blendModeRight : String
  transitionIn : String
  transitionOut : String
  zIndex : ℤ
  deriving Repr

/-- A sequence: an ordered list of fragments (`type.ts`). -/
structure Seq where
  fragments : List Fragment
  deriving Repr

/-- An asset record (`type.ts` / `project.ts`). -/
structure Asset where
  name : String
  path : String
  type : AssetType
  duration : JSNum
  deriving Repr

/-- A render target (`type.ts`). -/
structure Output where
  name : String
  path : String
  resWidth : ℕ
  resHeight : ℕ
  fps : ℕ
  deriving Repr

/-- The typed project structure consumed by the generator (`type.ts`).
`assets` and `assetIndexMap` are JavaScript `Map`s; both are embedded as
association lists in insertion order (first binding wins on lookup, matching
the construction sites, which never re-insert a key). -/
structure ProjectStructure where
  sequences : List Seq
  assets : List (String × Asset)
  output : Output
  assetIndexMap : List (String × ℕ)
  deriving Repr

/-- `Map.get`: first binding of the key. -/
def mapGet (m : List (String × α)) (key : String) : Option α :=
  (m.find? (fun p => p.1 = key)).map Prod.snd

/-! ## The filter DAG

`generator.ts` builds the graph through `StreamDAG` (`dag.ts`) and the fluent
`StreamBuilder` / `StreamUtils` (`stream-builder.ts`), whose primitive filter
constructors live in `filtercomplex.ts`.  `dag.ts` and `filtercomplex.ts` are
not among the sources.  Modelled from the spec: a Filter has an ordered input
label list, a name, named parameters, an ordered output label list, and
renders to `[in…]name=k1=v1:k2=v2[out…]`; the DAG owns the filter sequence
and a monotonic counter minting fresh labels `L0, L1, …`, and renders by
joining filters with `;` in insertion order. -/

/-- A filter node of the graph (string labels, as used by `stream-builder.ts`). -/
structure Filter where
  inputs : List String
  name : String
  params : List (String × String)
  outputs : List String
  deriving Repr, DecidableEq

/-- Canonical rendering `[in1][in2]…name=k1=v1:k2=v2[out1]…`. -/
def Filter.render (f : Filter) : String :=
  String.join (f.inputs.map (fun l => "[" ++ l ++ "]")) ++ f.name ++
    (if f.params.isEmpty then ""
     else "=" ++ String.intercalate ":" (f.params.map (fun p => p.1 ++ "=" ++ p.2))) ++
    String.join (f.outputs.map (fun l => "[" ++ l ++ "]"))

/-- The append-only stream DAG with its label counter (`dag.ts`, modelled
from the spec). -/
structure StreamDAG where
  counter : ℕ
  filters : List Filter
  deriving Repr

/-- A fresh DAG (`new StreamDAG()`). -/
def StreamDAG.empty : StreamDAG := ⟨0, []⟩

/-- `dag.label()`: mint the next fresh label. -/
def StreamDAG.mint (st : StreamDAG) : String × StreamDAG :=
  ("L" ++ toString st.counter, { st with counter := st.counter + 1 })

/-- `dag.add(filter)`: append a filter. -/
def StreamDAG.add (st : StreamDAG) (f : Filter) : StreamDAG :=
  { st with filters := st.filters ++ [f] }

/-- `dag.render()`: join the filters with `;` in insertion order. -/
def StreamDAG.render (st : StreamDAG) : String :=
  String.intercalate ";" (st.filters.map Filter.render)

/-- `makeScale` (`filtercomplex.ts`, modelled from the spec: `scale(w,h)`). -/
def makeScale (input output : String) (w h : ℕ) : Filter :=
  ⟨[input], "scale", [("w", toString w), ("h", toString h)], [output]⟩

/-- `makeFps` (`filtercomplex.ts`, modelled from the spec: `fps(n)`). -/
def makeFps (input output : String) (fps : ℕ) : Filter :=
  ⟨[input], "fps", [("fps", toString fps)], [output]⟩

/-- `makeCopy` (`filtercomplex.ts`, modelled from the spec, which renders the
passthrough as the `null` filter). -/
def makeCopy (input output : String) : Filter :=
  ⟨[input], "null", [], [output]⟩

/-- `makeConcat` (`filtercomplex.ts`, modelled from the spec and the comment
in `generator.ts`: the video-only generator emits `concat=n=<k>:v=1:a=0`). -/
def makeConcatFC (inputs : List String) (output : String) : Filter :=
  ⟨inputs, "concat",
   [("n", toString inputs.length), ("v", "1"), ("a", "0")], [output]⟩

/-- `makeXFade` (`filtercomplex.ts`, modelled from the spec:
`duration=<s>:offset=<s>:transition=<name>` with default transition `fade`;
parameter order pinned by `ffmpeg.test.ts`). -/
def makeXFadeFC (in1 in2 output : String) (duration offset : ℚ)
    (transition : Option String) : Filter :=
  ⟨[in1, in2], "xfade",
   [("transition", transition.getD "fade"), ("duration", qToDecStr duration),
    ("offset", qToDecStr offset)], [output]⟩

/-- `dag.from(label).scale({1920,1080}).fps(30)` — the normalisation chain the
generator applies to every fragment input (`stream-builder.ts` chaining: each
step mints an output label and appends a filter). -/
def fromScaleFps (input : String) (st : StreamDAG) : String × StreamDAG :=
  let o1 := st.mint.1
  let st1 := (st.mint.2).add (makeScale input o1 1920 1080)
  let o2 := st1.mint.1
  (o2, (st1.mint.2).add (makeFps o1 o2 30))

/-! ## `generator.ts`: the DAG-based filter-graph compiler -/

/-- `assetIndexMap.get(frag.assetName) ?? 0`. -/
def assetIndexOf (m : List (String × ℕ)) (name : String) : ℕ :=
  (mapGet m name).getD 0

/-- The video input label `"<k>:v"` of a fragment. -/
def fragInputLabel (m : List (String × ℕ)) (f : Fragment) : String :=
  toString (assetIndexOf m f.assetName) ++ ":v"

/-- `buildConcatGraph`: scale+fps every fragment, then one concat filter. -/
def buildConcatGraph (st : StreamDAG) (fragments : List Fragment)
    (m : List (String × ℕ)) (outputLabel : String) : StreamDAG :=
  let acc := fragments.foldl
    (fun (acc : List String × StreamDAG) frag =>
      ((acc.1 ++ [(fromScaleFps (fragInputLabel m frag) acc.2).1]),
       (fromScaleFps (fragInputLabel m frag) acc.2).2)) ([], st)
  acc.2.add (makeConcatFC acc.1 outputLabel)

/-- The `concatEnd` computed by `buildHybridGraph`: the number of consecutive
fragments after the first whose `overlayLeft` is 0 (the loop breaks at the
first fragment `i+1` with a non-zero overlap). -/
def concatEndOf (fragments : List Fragment) : ℕ :=
  ((fragments.drop 1).takeWhile (fun f => decide (f.overlayLeft = 0))).length

/-- The xfade loop of `buildHybridGraph` (`while (nextFragmentIndex < …)`):
scale+fps the next fragment, slide the cursor by its `overlayLeft`, and join
with an xfade of duration `|overlayLeft|/1000` at offset `timeOffset/1000`;
the last fragment goes to `outputLabel`, intermediate ones to fresh labels. -/
def hybridLoop (m : List (String × ℕ)) (outputLabel : String) :
    String → ℚ → List Fragment → StreamDAG → StreamDAG
  | _, _, [], st => st
  | cur, timeOffset, f :: rest, st =>
    let ns := (fromScaleFps (fragInputLabel m f) st).1
    let st1 := (fromScaleFps (fragInputLabel m f) st).2
    let t1 := timeOffset + f.overlayLeft
    let tdur := |f.overlayLeft| / 1000
    if rest.isEmpty then
      st1.add (makeXFadeFC cur ns outputLabel tdur (t1 / 1000) none)
    else
      let o := st1.mint.1
      hybridLoop m outputLabel o (t1 + f.duration) rest
        ((st1.mint.2).add (makeXFadeFC cur ns o tdur (t1 / 1000) none))

/-- `buildHybridGraph`: concat the longest zero-overlap prefix (when it has at
least two fragments), then join the remaining fragments with xfades.  The
empty case is unreachable (callers pass at least two fragments). -/
def buildHybridGraph (st : StreamDAG) (fragments : List Fragment)
    (m : List (String × ℕ)) (outputLabel : String) : StreamDAG :=
  match fragments with
  | [] => st
  | f0 :: rest =>
    let ce := concatEndOf (f0 :: rest)
    if 1 ≤ ce then
      let pre := (f0 :: rest).take (ce + 1)
      let acc := pre.foldl
        (fun (acc : List String × StreamDAG) frag =>
          ((acc.1 ++ [(fromScaleFps (fragInputLabel m frag) acc.2).1]),
           (fromScaleFps (fragInputLabel m frag) acc.2).2)) ([], st)
      let timeOffset := (pre.map (·.duration)).sum
      let o := acc.2.mint.1
      hybridLoop m outputLabel o timeOffset ((f0 :: rest).drop (ce + 1))
        ((acc.2.mint.2).add (makeConcatFC acc.1 o))
    else
      hybridLoop m outputLabel (fromScaleFps (fragInputLabel m f0) st).1
        f0.duration rest (fromScaleFps (fragInputLabel m f0) st).2

/-- `generateSequenceGraph`: empty sequences pass the label through, single
fragments are copied, zero-overlap sequences use one concat, the rest use the
hybrid concat+xfade builder. -/
def generateSequenceGraph (st : StreamDAG) (sequence : Seq)
    (m : List (String × ℕ)) (outputLabel : String) : StreamDAG :=
  match sequence.fragments with
  | [] => st
  | [fragment] =>
      st.add (makeCopy (fragInputLabel m fragment) outputLabel)
  | fragments =>
      if fragments.any (fun f => decide (f.overlayLeft ≠ 0)) then
        buildHybridGraph st fragments m outputLabel
      else
        buildConcatGraph st fragments m outputLabel

/-- A sequence is kept by `buildDAG` iff some fragment's asset exists and has
video (type `video` or `image`). -/
def isVideoSequence (assets : List (String × Asset)) (s : Seq) : Bool :=
  s.fragments.any (fun f =>
    match mapGet assets f.assetName with
    | some a => a.type = AssetType.video || a.type = AssetType.image
    | none => false)

/-- `buildDAG`: filter to video sequences, compile each to a fresh output
label, then connect the sequence outputs (copy for one, concat for many). -/
def buildDAG (project : ProjectStructure) : StreamDAG :=
  if project.sequences.isEmpty then StreamDAG.empty
  else
    let videoSequences := project.sequences.filter (isVideoSequence project.assets)
    if videoSequences.isEmpty then StreamDAG.empty
    else
      let acc := videoSequences.foldl
        (fun (acc : List String × StreamDAG) sequence =>
          (acc.1 ++ [acc.2.mint.1],
           generateSequenceGraph acc.2.mint.2 sequence project.assetIndexMap
             acc.2.mint.1)) ([], StreamDAG.empty)
      match acc.1 with
      | [single] => acc.2.add (makeCopy single "outv")
      | many => acc.2.add (makeConcatFC many "outv")

/-- `generateFilterComplex` (DAG flavour): render the built DAG. -/
def generateFilterComplex (project : ProjectStructure) : String :=
  (buildDAG project).render

/-! ## `generateFFmpegCommand` (command assembler) -/

/-- The `inputsByIndex` map of `generateFFmpegCommand`: asset input index →
resolved path, for every mapped asset present in the project. -/
def ffmpegInputPairs (project : ProjectStructure) : List (ℕ × String) :=
  project.assetIndexMap.filterMap
    (fun p => (mapGet project.assets p.1).map (fun a => (p.2, a.path)))

/-- `Array.from(inputsByIndex.keys()).sort((a, b) => a - b)`. -/
def ffmpegSortedIndices (project : ProjectStructure) : List ℕ :=
  ((ffmpegInputPairs project).map Prod.fst).mergeSort (· ≤ ·)

/-- The ordered `-i` input arguments of `generateFFmpegCommand`: resolve each
mapped asset to its path, then emit the paths in ascending stable-index
order. -/
def ffmpegInputArgs (project : ProjectStructure) : List String :=
  (ffmpegSortedIndices project).filterMap (fun i =>
    (((ffmpegInputPairs project).find? (fun q => q.1 = i)).map Prod.snd).map
      (fun path => "-i \"" ++ path ++ "\""))

/-- `generateFFmpegCommand`: the full command string. -/
def generateFFmpegCommand (project : ProjectStructure) (filterComplex : String) :
    String :=
  let parts := ["ffmpeg"] ++ ffmpegInputArgs project ++
    (if filterComplex = "" then [] else ["-filter_complex \"" ++ filterComplex ++ "\""]) ++
    ["-map \"[outv]\"",
     "-s " ++ toString project.output.resWidth ++ "x" ++ toString project.output.resHeight,
     "-r " ++ toString project.output.fps,
     "-pix_fmt yuv420p",
     "\"" ++ project.output.path ++ "\""]
  String.intercalate " " parts

/-! ## `ffmpeg-generator.ts`: stable asset input indices -/

/-- Insertion-order de-duplication: the iteration order of a JavaScript `Set`
populated by a traversal. -/
def firstUses (refs : List String) : List String :=
  refs.foldl (fun acc x => if x ∈ acc then acc else acc ++ [x]) []

/-- `buildAssetInputMap`: collect the asset names referenced by the fragments
of all sequences in traversal order, de-duplicate keeping first occurrences,
and map each name to its position. -/
def buildAssetInputMap (refsBySequence : List (List String)) : List (String × ℕ) :=
  let usedAssets := firstUses refsBySequence.flatten
  usedAssets.zip (List.range usedAssets.length)

/-- `getAssetInputIndex`: `assetInputMap.get(assetName) ?? -1`, embedded as an
`Option`. -/
def getAssetInputIndex (refsBySequence : List (List String)) (name : String) :
    Option ℕ :=
  mapGet (buildAssetInputMap refsBySequence) name

/-! ## `app-renderer.ts`: rendering an App to a cached PNG

`renderApp` is embedded as a function of its options and of the observable
environment (whether the cached PNG exists, whether the app's `index.html`
exists, and whether the page sets `window.__stsRenderComplete` within the
timeout), returning the ordered browser-effect trace together with the
result. -/

/-- `RENDER_TIMEOUT_MS` from `app-renderer.ts`. -/
def RENDER_TIMEOUT_MS : ℕ := 5000

/-- The observable environment of one `renderApp` call. -/
structure AppRenderEnv where
  cacheHit : Bool          -- `existsSync(screenshotPath)`
  indexExists : Bool       -- `existsSync(indexPath)`
  rendersWithinTimeout : Bool
    -- whether `window.__stsRenderComplete === true` holds within the timeout
  deriving Repr, DecidableEq

/-- The browser/filesystem effects `renderApp` can perform, in order. -/
inductive BrowserAction : Type
  | injectFlag (value : Bool)  -- `evaluateOnNewDocument`: set `__stsRenderComplete`
  | navigate                   -- `page.goto(url)`
  | screenshot                 -- `page.screenshot(...)`
  | writePng (path : String)   -- `writeFile(screenshotPath, screenshot)`
  | closePage                  -- `page.close()` (finally block)
  deriving Repr, DecidableEq

/-- `renderApp`: return the cached path on a cache hit; fail when `index.html`
is missing; otherwise inject the readiness flag as `false`, navigate, and
either screenshot + write the PNG (flag set in time) or fail with the timeout
error.  The first component is the effect trace. -/
def renderApp (o : RenderAppOptions) (env : AppRenderEnv) :
    List BrowserAction × Except String String :=
  let cacheKey := renderAppCacheKey o
  let screenshotPath := "cache/apps/" ++ cacheKey ++ ".png"
  if env.cacheHit then ([], Except.ok screenshotPath)
  else if !env.indexExists then
    ([], Except.error ("App \"" ++ o.appId ++ "\": index.html not found at " ++
      o.appSrc ++ "/index.html"))
  else if env.rendersWithinTimeout then
    ([BrowserAction.injectFlag false, BrowserAction.navigate,
      BrowserAction.screenshot, BrowserAction.writePng screenshotPath,
      BrowserAction.closePage],
     Except.ok screenshotPath)
  else
    ([BrowserAction.injectFlag false, BrowserAction.navigate,
      BrowserAction.closePage],
     Except.error ("App \"" ++ o.appId ++
       "\" did not set window.__stsRenderComplete within " ++
       toString RENDER_TIMEOUT_MS ++ "ms"))

/-- `renderApps`: render in order, aborting at the first failure (the thrown
error propagates out of the `for` loop). -/
def renderApps : List (RenderAppOptions × AppRenderEnv) →
    List BrowserAction × Except String (List String)
  | [] => ([], Except.ok [])
  | (o, env) :: rest =>
    let (tr, res) := renderApp o env
    match res with
    | Except.error e => (tr, Except.error e)
    | Except.ok p =>
      let (tr2, res2) := renderApps rest
      (tr ++ tr2, res2.map (p :: ·))

/-- A step of the per-output pipeline: a browser effect or the encoder
invocation. -/
inductive PipelineAction : Type
  | browser (a : BrowserAction)
  | encode
  deriving Repr, DecidableEq

/-- Modelled from the spec: the per-output state machine
`… → Rasterize → BuildGraph → Encode → …` in which any failure is terminal,
so a rasterization failure prevents the encoder invocation.  The orchestrator
module wiring `renderApps` to the encoder is not among the sources. -/
def compileOutput (apps : List (RenderAppOptions × AppRenderEnv)) :
    List PipelineAction × Except String Unit :=
  let (tr, res) := renderApps apps
  match res with
  | Except.error e => (tr.map PipelineAction.browser, Except.error e)
  | Except.ok _ => (tr.map PipelineAction.browser ++ [PipelineAction.encode],
                    Except.ok ())

/-! ## `ffmpeg.ts`: typed labels, `makeConcat`

`ffmpeg.ts` itself is not among the sources (only its test suite
`ffmpeg.test.ts` and its callers are).  Modelled from the spec: a Label is a
`(tag, isAudio)` pair; `concat` accepts `n` segments each carrying `v` video
and `a` audio labels, the library choosing `(n, v, a)` as the factorization
maximizing `n` that partitions all inputs correctly by `isAudio`
interleaving; output labels are `[v]`/`[a]`, or `[v0][v1]…`/`[a0]…` when
`v > 1` or `a > 1`; empty input is a hard error. -/

/-- A typed stream label (`ffmpeg.ts`, modelled from the spec). -/
structure Label where
  tag : String
  isAudio : Bool
  deriving Repr, DecidableEq

/-- A filter over typed labels (`ffmpeg.ts`, modelled from the spec). -/
structure LFilter where
  inputs : List Label
  name : String
  params : List (String × String)
  outputs : List Label
  deriving Repr, DecidableEq

/-- Canonical rendering, as pinned by `ffmpeg.test.ts`. -/
def LFilter.render (f : LFilter) : String :=
  String.join (f.inputs.map (fun l => "[" ++ l.tag ++ "]")) ++ f.name ++
    (if f.params.isEmpty then ""
     else "=" ++ String.intercalate ":" (f.params.map (fun p => p.1 ++ "=" ++ p.2))) ++
    String.join (f.outputs.map (fun l => "[" ++ l.tag ++ "]"))

/-- Split a list into chunks of size `s`, fuel-bounded (each step consumes at
least one element, so `l.length` steps always suffice). -/
def chunksOfF (s : ℕ) : ℕ → List α → List (List α)
  | 0, _ => []
  | fuel + 1, l =>
    if l.isEmpty || s == 0 then []
    else l.take s :: chunksOfF s fuel (l.drop s)

/-- Split a list into chunks of size `s`. -/
def chunksOf (s : ℕ) (l : List α) : List (List α) := chunksOfF s l.length l

/-- The per-segment `isAudio` pattern: `v` video labels then `a` audio
labels. -/
def concatPattern (v a : ℕ) : List Bool :=
  List.replicate v false ++ List.replicate a true

/-- Whether splitting the inputs into `n` equal segments partitions them
correctly by `isAudio` interleaving (every segment is `v` videos followed by
`a` audios, with `(v, a)` read off the first segment). -/
def validFactor (inputs : List Label) (n : ℕ) : Bool :=
  n != 0 && inputs.length % n == 0 &&
  (let s := inputs.length / n
   let v := ((inputs.take s).takeWhile (fun l => !l.isAudio)).length
   (chunksOf s inputs).all
     (fun c => c.map (fun l => l.isAudio) == concatPattern v (s - v)))

/-- Downward search for the factorization maximizing the segment count. -/
def searchFactor (inputs : List Label) : ℕ → Option ℕ
  | 0 => none
  | n + 1 => if validFactor inputs (n + 1) then some (n + 1)
             else searchFactor inputs n

/-- The `(n, v, a)` triple `makeConcat` selects. -/
def makeConcatTriple (inputs : List Label) : Option (ℕ × ℕ × ℕ) :=
  match searchFactor inputs inputs.length with
  | none => none
  | some n =>
    let s := inputs.length / n
    let v := ((inputs.take s).takeWhile (fun l => !l.isAudio)).length
    some (n, v, s - v)

/-- The output labels for a stream letter and count (`[v]`, or `[v0][v1]…`
when the count exceeds 1). -/
def concatOuts (letter : String) (audio : Bool) (count : ℕ) : List Label :=
  if count == 0 then []
  else if count == 1 then [⟨letter, audio⟩]
  else (List.range count).map (fun i => ⟨letter ++ toString i, audio⟩)

/-- `makeConcat` (`ffmpeg.ts`, modelled from the spec; behaviour on every
example of `ffmpeg.test.ts` agrees with the expected filters there). -/
def makeConcat (inputs : List Label) : Except String LFilter :=
  if inputs.isEmpty then Except.error "makeConcat: inputs cannot be empty"
  else
    match makeConcatTriple inputs with
    | none => Except.error "makeConcat: inputs cannot be partitioned into segments"
    | some (n, v, a) =>
      Except.ok ⟨inputs, "concat",
        [("n", toString n), ("v", toString v), ("a", toString a)],
        concatOuts "v" false v ++ concatOuts "a" true a⟩

/-! ## `expression-parser.ts`

The `calc(…)` expression language.  `transformExpressionToVariables` is a
pipeline of four global regexp replacements, embedded as left-to-right
character scanners (each scanner resumes after a match and advances one
character past a failed match start, which is exactly the `/g` replace
discipline; the regexps involved backtrack trivially, see the comments).
The arithmetic parser/evaluator of the external `expr-eval` library is
embedded as a standard precedence parser over exact rationals. -/

/-- Helper: `dropWhile` never lengthens a list. -/
theorem dropWhile_length_le (p : α → Bool) (l : List α) :
    (l.dropWhile p).length ≤ l.length := by
  induction l with
  | nil => simp
  | cons a t ih =>
    by_cases h : p a
    · simpa [List.dropWhile_cons, h] using Nat.le_succ_of_le ih
    · simp [List.dropWhile_cons, h]

/-- The regexp class `[\w.]` (a word character or a dot). -/
def isWordDotCh (c : Char) : Bool := isWordCh c || c = '.'

/-- Replace every occurrence of `calc(` by `(`. -/
def calcScan : List Char → List Char
  | 'c' :: 'a' :: 'l' :: 'c' :: '(' :: t => '(' :: calcScan t
  | c :: t => c :: calcScan t
  | [] => []

/-- Replace every `url(#<id>.<path>)` by `<id>_<path with dots replaced>`.
The lazy `([\w.]+?)\)` matches the maximal `[\w.]` run when it is followed by
`)` (no shorter stop is possible because `)` is not a `[\w.]` character) and
fails otherwise. -/
def urlScanF : ℕ → List Char → List Char
  | 0, l => l
  | fuel + 1, l =>
    match l with
    | 'u' :: 'r' :: 'l' :: '(' :: '#' :: t =>
      let id := t.takeWhile isWordCh
      match t.dropWhile isWordCh with
      | '.' :: r2 =>
        let path := r2.takeWhile isWordDotCh
        match r2.dropWhile isWordDotCh with
        | ')' :: r4 =>
          if id.isEmpty || path.isEmpty then
            'u' :: urlScanF fuel ('r' :: 'l' :: '(' :: '#' :: t)
          else
            (id ++ '_' :: path.map (fun c => if c = '.' then '_' else c)) ++
              urlScanF fuel r4
        | _ => 'u' :: urlScanF fuel ('r' :: 'l' :: '(' :: '#' :: t)
      | _ => 'u' :: urlScanF fuel ('r' :: 'l' :: '(' :: '#' :: t)
    | c :: t => c :: urlScanF fuel t
    | [] => []

/-- The `url(#…)` replacement scanner (fuel-bounded at the list length: every
step consumes at least one character). -/
def urlScan (l : List Char) : List Char := urlScanF l.length l

/-- Digit characters of a natural number, most significant first (`"0"` for
zero), as printed by JavaScript `String()`. -/
def natChars (n : ℕ) : List Char :=
  if n = 0 then ['0']
  else ((Nat.digits 10 n).reverse).map (fun d => Char.ofNat (48 + d))

/-- Digit characters of `fp` left-padded with zeros to width `k`. -/
def padChars (k fp : ℕ) : List Char :=
  let base := if fp = 0 then [] else ((Nat.digits 10 fp).reverse).map (fun d => Char.ofNat (48 + d))
  List.replicate (k - base.length) '0' ++ base

/-- Decimal rendering of the exact rational `m / 10^k` (`m, k` naturals):
what JavaScript `String(x)` prints for that value, except that a trailing
zero run in the fraction is kept instead of trimmed (the value denoted is
identical, and no later stage distinguishes the two spellings). -/
def numRender (m k : ℕ) : List Char :=
  let ip := m / 10 ^ k
  let fp := m % 10 ^ k
  natChars ip ++ (if fp = 0 then [] else '.' :: padChars k fp)

/-- The value of the digit characters `ds ++ fs` read as an integer (the
numerator of the matched literal `ds.fs` over `10^|fs|`). -/
def mantissaOf (ds fs : List Char) : ℕ := digitsVal (ds ++ fs)

/-- The optional fraction of a numeric literal: consume `.<digits>` when
present (the group `(?:\\.\\d+)?`), returning the fraction digits and the
rest. -/
def fracSplit (r1 : List Char) : List Char × List Char :=
  match r1 with
  | '.' :: u =>
    if (u.takeWhile isDigitCh).isEmpty then ([], '.' :: u)
    else (u.takeWhile isDigitCh, u.dropWhile isDigitCh)
  | r1 => ([], r1)

/-- `fracSplit` never lengthens the rest. -/
theorem fracSplit_snd_length_le (r1 : List Char) :
    (fracSplit r1).2.length ≤ r1.length := by
  unfold fracSplit
  split
  · rename_i u
    split
    · simp
    · have := dropWhile_length_le isDigitCh u
      simp only [List.length_cons]
      omega
  · simp

/-- Replace every seconds literal (`/(\d+(?:\.\d+)?)s(?!\w)/`) by its value
times 1000.  Backtracking inside the regexp never rescues a failed match
start: dropping the fraction group leaves `s` expected at a `.`, and
shortening the greedy `\d+` leaves `s` expected at a digit. -/
def sScanF : ℕ → List Char → List Char
  | 0, l => l
  | fuel + 1, l =>
    match l with
    | c :: t =>
      if isDigitCh c then
        let ds := c :: t.takeWhile isDigitCh
        let fs := (fracSplit (t.dropWhile isDigitCh)).1
        match (fracSplit (t.dropWhile isDigitCh)).2 with
        | 's' :: r3 =>
          if r3.head?.all (fun d => !isWordCh d) then
            numRender (1000 * mantissaOf ds fs) fs.length ++ sScanF fuel r3
          else c :: sScanF fuel t
        | _ => c :: sScanF fuel t
      else c :: sScanF fuel t
    | [] => []

/-- The seconds-literal replacement scanner (fuel-bounded at the list
length). -/
def sScan (l : List Char) : List Char := sScanF l.length l

/-- Replace every milliseconds literal (`/(\d+(?:\.\d+)?)ms(?!\w)/`) by its
plain value. -/
def msScanF : ℕ → List Char → List Char
  | 0, l => l
  | fuel + 1, l =>
    match l with
    | c :: t =>
      if isDigitCh c then
        let ds := c :: t.takeWhile isDigitCh
        let fs := (fracSplit (t.dropWhile isDigitCh)).1
        match (fracSplit (t.dropWhile isDigitCh)).2 with
        | 'm' :: 's' :: r3 =>
          if r3.head?.all (fun d => !isWordCh d) then
            numRender (mantissaOf ds fs) fs.length ++ msScanF fuel r3
          else c :: msScanF fuel t
        | _ => c :: msScanF fuel t
      else c :: msScanF fuel t
    | [] => []

/-- The milliseconds-literal replacement scanner (fuel-bounded at the list
length). -/
def msScan (l : List Char) : List Char := msScanF l.length l

/-- `transformExpressionToVariables`: strip the `calc(` wrapper, flatten
`url(#…)` references to variable names, then normalise `s` and `ms`
literals to milliseconds. -/
def transformExpressionToVariables (s : String) : String :=
  String.mk (msScan (sScan (urlScan (calcScan s.toList))))

/-! ### The arithmetic language of `expr-eval`

The external `expr-eval` library parses the transformed text with a standard
arithmetic grammar (literals, identifiers, `+ - * /`, unary minus,
parentheses) and evaluates over JavaScript numbers; division is JavaScript
division and never throws. -/

/-- Abstract syntax of a compiled arithmetic expression. -/
inductive AExpr : Type
  | num (q : ℚ)
  | evar (name : String)
  | add (a b : AExpr)
  | sub (a b : AExpr)
  | mul (a b : AExpr)
  | div (a b : AExpr)
  | neg (a : AExpr)
  deriving Repr, DecidableEq

/-- Tokens of the arithmetic language. -/
inductive Tok : Type
  | num (q : ℚ)
  | ident (s : String)
  | lparen
  | rparen
  | plus
  | minus
  | star
  | slash
  deriving Repr, DecidableEq

/-- Whether a character can start an identifier (letter, `_`, or `$`). -/
def isIdentStartCh (c : Char) : Bool :=
  (97 ≤ c.toNat && c.toNat ≤ 122) || (65 ≤ c.toNat && c.toNat ≤ 90) ||
  c.toNat = 95 || c.toNat = 36

/-- Tokenizer for the arithmetic language. -/
def tokenizeF : ℕ → List Char → Except String (List Tok)
  | 0, _ => Except.error "tokenizer out of fuel"
  | fuel + 1, l =>
    match l with
    | [] => Except.ok []
    | c :: t =>
      if isSpaceCh c then tokenizeF fuel t
      else if isDigitCh c then
        let ds := c :: t.takeWhile isDigitCh
        let fs := (fracSplit (t.dropWhile isDigitCh)).1
        (tokenizeF fuel (fracSplit (t.dropWhile isDigitCh)).2).map
          (Tok.num (decimalVal ds fs) :: ·)
      else if isIdentStartCh c then
        (tokenizeF fuel (t.dropWhile isWordCh)).map
          (Tok.ident (String.mk (c :: t.takeWhile isWordCh)) :: ·)
      else if c = '(' then (tokenizeF fuel t).map (Tok.lparen :: ·)
      else if c = ')' then (tokenizeF fuel t).map (Tok.rparen :: ·)
      else if c = '+' then (tokenizeF fuel t).map (Tok.plus :: ·)
      else if c = '-' then (tokenizeF fuel t).map (Tok.minus :: ·)
      else if c = '*' then (tokenizeF fuel t).map (Tok.star :: ·)
      else if c = '/' then (tokenizeF fuel t).map (Tok.slash :: ·)
      else Except.error ("unexpected character " ++ String.mk [c])

/-- Tokenizer for the arithmetic language (fuel-bounded at the list
length: every step consumes at least one character). -/
def tokenize (l : List Char) : Except String (List Tok) := tokenizeF (l.length + 1) l

/-! Precedence parser over the token list, fuel-bounded (the fuel only ever
runs out on malformed input far beyond the fuel budget chosen below). -/

mutual

/-- Parse a sum of terms. -/
def parseSum : ℕ → List Tok → Except String (AExpr × List Tok)
  | 0, _ => Except.error "expression too deep"
  | fuel + 1, toks =>
    match parseTerm fuel toks with
    | Except.error m => Except.error m
    | Except.ok (e, rest) => parseSumLoop fuel e rest

/-- Left-associated `+`/`-` chain. -/
def parseSumLoop : ℕ → AExpr → List Tok → Except String (AExpr × List Tok)
  | 0, _, _ => Except.error "expression too deep"
  | fuel + 1, acc, toks =>
    match toks with
    | Tok.plus :: rest =>
      match parseTerm fuel rest with
      | Except.error m => Except.error m
      | Except.ok (e, rest2) => parseSumLoop fuel (AExpr.add acc e) rest2
    | Tok.minus :: rest =>
      match parseTerm fuel rest with
      | Except.error m => Except.error m
      | Except.ok (e, rest2) => parseSumLoop fuel (AExpr.sub acc e) rest2
    | _ => Except.ok (acc, toks)

/-- Parse a product of factors. -/
def parseTerm : ℕ → List Tok → Except String (AExpr × List Tok)
  | 0, _ => Except.error "expression too deep"
  | fuel + 1, toks =>
    match parseFactor fuel toks with
    | Except.error m => Except.error m
    | Except.ok (e, rest) => parseTermLoop fuel e rest

/-- Left-associated `*`/`/` chain. -/
def parseTermLoop : ℕ → AExpr → List Tok → Except String (AExpr × List Tok)
  | 0, _, _ => Except.error "expression too deep"
  | fuel + 1, acc, toks =>
    match toks with
    | Tok.star :: rest =>
      match parseFactor fuel rest with
      | Except.error m => Except.error m
      | Except.ok (e, rest2) => parseTermLoop fuel (AExpr.mul acc e) rest2
    | Tok.slash :: rest =>
      match parseFactor fuel rest with
      | Except.error m => Except.error m
      | Except.ok (e, rest2) => parseTermLoop fuel (AExpr.div acc e) rest2
    | _ => Except.ok (acc, toks)

/-- Parse an atom: literal, identifier, unary minus, or parentheses. -/
def parseFactor : ℕ → List Tok → Except String (AExpr × List Tok)
  | 0, _ => Except.error "expression too deep"
  | fuel + 1, toks =>
    match toks with
    | Tok.num q :: rest => Except.ok (AExpr.num q, rest)
    | Tok.ident s :: rest => Except.ok (AExpr.evar s, rest)
    | Tok.minus :: rest =>
      match parseFactor fuel rest with
      | Except.error m => Except.error m
      | Except.ok (e, rest2) => Except.ok (AExpr.neg e, rest2)
    | Tok.lparen :: rest =>
      match parseSum fuel rest with
      | Except.error m => Except.error m
      | Except.ok (e, Tok.rparen :: rest2) => Except.ok (e, rest2)
      | Except.ok _ => Except.error "expected closing parenthesis"
    | _ => Except.error "unexpected token"

end

/-- `parser.parse(transformed)`: tokenize and parse to the end of input. -/
def exprParse (s : String) : Except String AExpr :=
  match tokenize s.toList with
  | Except.error m => Except.error m
  | Except.ok toks =>
    match parseSum (4 * toks.length + 4) toks with
    | Except.error m => Except.error m
    | Except.ok (e, []) => Except.ok e
    | Except.ok _ => Except.error "unexpected trailing tokens"

/-- A JavaScript value reachable by the property navigation: a number or a
nested object. -/
inductive JValue : Type
  | num (q : ℚ)
  | obj (fields : List (String × JValue))
  deriving Repr

/-- Evaluation of a compiled expression under variable bindings, exactly as
`expr-eval` does it: an unbound variable throws, all arithmetic is JavaScript
arithmetic (an object-valued variable participates as NaN).  Division by zero
yields an infinity or NaN value, not an error. -/
def evalAExpr (bindings : List (String × JValue)) : AExpr → Except String JSNum
  | AExpr.num q => Except.ok (JSNum.finite q)
  | AExpr.evar s =>
    match mapGet bindings s with
    | some (JValue.num q) => Except.ok (JSNum.finite q)
    | some (JValue.obj _) => Except.ok JSNum.nan
    | none => Except.error ("undefined variable " ++ s)
  | AExpr.add a b => do pure (JSNum.jsAdd (← evalAExpr bindings a) (← evalAExpr bindings b))
  | AExpr.sub a b => do pure (JSNum.jsSub (← evalAExpr bindings a) (← evalAExpr bindings b))
  | AExpr.mul a b => do pure (JSNum.jsMul (← evalAExpr bindings a) (← evalAExpr bindings b))
  | AExpr.div a b => do pure (JSNum.jsDiv (← evalAExpr bindings a) (← evalAExpr bindings b))
  | AExpr.neg a => do pure (JSNum.jsNeg (← evalAExpr bindings a))

/-! ### `parseExpression` / `evaluateCompiledExpression` -/

/-- A compiled expression: the original text plus the parsed arithmetic. -/
structure CompiledExpression where
  original : String
  expression : AExpr
  deriving Repr

/-- `parseExpression`: transform, then parse; a parse failure is wrapped in a
message quoting the original expression text. -/
def parseExpression (s : String) : Except String CompiledExpression :=
  match exprParse (transformExpressionToVariables s) with
  | Except.ok e => Except.ok ⟨s, e⟩
  | Except.error m =>
      Except.error ("Failed to parse expression \"" ++ s ++ "\": " ++ m)

/-- Per-fragment timing data (`TimeData`; the `end` field is named `endT`
here because `end` is a Lean keyword). -/
structure TimeData where
  start : ℚ
  endT : ℚ
  duration : ℚ
  deriving Repr

/-- `FragmentData`: the record the property paths navigate into. -/
structure FragmentData where
  time : TimeData
  deriving Repr

/-- The evaluation context: fragment id → fragment data. -/
structure ExprContext where
  fragments : List (String × FragmentData)
  deriving Repr

/-- The JavaScript object a `FragmentData` presents to property navigation. -/
def FragmentData.toJValue (fd : FragmentData) : JValue :=
  JValue.obj [("time", JValue.obj
    [("start", JValue.num fd.time.start),
     ("end", JValue.num fd.time.endT),
     ("duration", JValue.num fd.time.duration)])]

/-- One step of JavaScript property access (`undefined` on a missing key or
on indexing into a number). -/
def jvGet : JValue → String → Option JValue
  | JValue.num _, _ => none
  | JValue.obj fields, k => mapGet fields k

/-- The boundary lookahead `(?=\s|[+\-*/)]|$)` of the reference-extraction
regexp (the `$` case is handled at the call site). -/
def isBoundaryCh (c : Char) : Bool :=
  isSpaceCh c || c = '+' || c = '-' || c = '*' || c = '/' || c = ')'

/-- Extract all fragment references `#<id>.<path>` from the original text
(regexp `/#(\w+)\.([\w.]+?)(?=\s|[+\-*/)]|$)/g`).  The lazy path group can
only stop where the lookahead holds, and boundary characters are not `[\w.]`
characters, so a match takes the whole `[\w.]` run and requires the next
character (if any) to be a boundary. -/
def extractRefsF : ℕ → List Char → List (String × String)
  | 0, _ => []
  | fuel + 1, l =>
    match l with
    | '#' :: t =>
      let id := t.takeWhile isWordCh
      match t.dropWhile isWordCh with
      | '.' :: r2 =>
        let path := r2.takeWhile isWordDotCh
        let r3 := r2.dropWhile isWordDotCh
        if id.isEmpty || path.isEmpty || !(r3.head?.all isBoundaryCh) then
          extractRefsF fuel t
        else
          (String.mk id, String.mk path) :: extractRefsF fuel r3
      | _ => extractRefsF fuel t
    | _ :: t => extractRefsF fuel t
    | [] => []

/-- Extract all fragment references `#<id>.<path>` from the original text
(regexp `/#(\w+)\.([\w.]+?)(?=\s|[+\-*/)]|$)/g`).  The lazy path group can
only stop where the lookahead holds, and boundary characters are not `[\w.]`
characters, so a match takes the whole `[\w.]` run and requires the next
character (if any) to be a boundary.  Fuel-bounded at the list length. -/
def extractRefs (l : List Char) : List (String × String) :=
  extractRefsF l.length l

/-- The flattened variable name of a reference:
`` `${id}_${prop.replace(/\./g, '_')}` ``. -/
def refVarName (id prop : String) : String :=
  id ++ "_" ++ String.mk (prop.toList.map (fun c => if c = '.' then '_' else c))

/-- JavaScript `String.prototype.split('.')` over the character list. -/
def splitDotsChars : List Char → List (List Char)
  | [] => [[]]
  | c :: t =>
    let r := splitDotsChars t
    if c = '.' then [] :: r
    else (c :: r.headD []) :: r.tail

/-- JavaScript `String.prototype.split('.')`. -/
def splitDots (s : String) : List String := (splitDotsChars s.toList).map String.mk

/-- Resolve one reference against the context: the missing-fragment and
missing-property failures quote the original expression text. -/
def resolveRef (original : String) (ctx : ExprContext) (id prop : String) :
    Except String JValue :=
  match mapGet ctx.fragments id with
  | none =>
      Except.error ("Fragment with id \"" ++ id ++
        "\" not found in expression: " ++ original)
  | some fragment =>
    (splitDots prop).foldlM (fun value part =>
        match jvGet value part with
        | none =>
            Except.error ("Property \"" ++ prop ++ "\" not found on fragment \"" ++
              id ++ "\" in expression: " ++ original)
        | some v => Except.ok v)
      fragment.toJValue

/-- `evaluateCompiledExpression`: resolve every reference occurring in the
original text into a variable binding, then evaluate; an evaluation failure
is wrapped in a message quoting the original expression text. -/
def evaluateCompiledExpression (compiled : CompiledExpression)
    (ctx : ExprContext) : Except String JSNum :=
  let refs := extractRefs compiled.original.toList
  match refs.foldlM (fun (acc : List (String × JValue)) r => do
      let v ← resolveRef compiled.original ctx r.1 r.2
      pure (acc ++ [(refVarName r.1 r.2, v)])) [] with
  | Except.error m => Except.error m
  | Except.ok bindings =>
    match evalAExpr bindings compiled.expression with
    | Except.error m =>
        Except.error ("Failed to evaluate expression \"" ++
          compiled.original ++ "\": " ++ m)
    | Except.ok v => Except.ok v

/-- `isCalcExpression`: `value.trim().startsWith('calc(')`. -/
def isCalcExpression (s : String) : Bool := (jsTrim s).startsWith "calc("

/-- The input to `parseValueLazy` (`number | string`). -/
inductive ValueInput : Type
  | numV (q : ℚ)
  | strV (s : String)
  deriving Repr

/-- The result of `parseValueLazy` (`number | CompiledExpression`). -/
inductive ParsedValue : Type
  | num (x : JSNum)
  | compiled (c : CompiledExpression)
  deriving Repr

/-- `parseValueLazy`: numbers pass through, `calc(…)` strings are compiled,
any other string is `parseFloat`ed and accepted whenever the result is not
NaN; only strings with no leading numeric prefix are rejected. -/
def parseValueLazy (v : ValueInput) : Except String ParsedValue :=
  match v with
  | ValueInput.numV q => Except.ok (ParsedValue.num (JSNum.finite q))
  | ValueInput.strV s =>
    if isCalcExpression s then
      match parseExpression s with
      | Except.ok c => Except.ok (ParsedValue.compiled c)
      | Except.error m => Except.error m
    else
      match jsParseFloat s with
      | some x => Except.ok (ParsedValue.num x)
      | none =>
          Except.error ("Invalid value: \"" ++ s ++
            "\". Expected number or calc() expression")

/-- `calculateFinalValue`: numbers pass through, compiled expressions are
evaluated. -/
def calculateFinalValue (v : ParsedValue) (ctx : ExprContext) :
    Except String JSNum :=
  match v with
  | ParsedValue.num x => Except.ok x
  | ParsedValue.compiled c => evaluateCompiledExpression c ctx

/-! # Theorems for the specification claims -/

/-! ## C4 — probe failures -/

/-- C4, counterexample: the spec claims a probe failure for a referenced
asset is fatal (`AssetMissing`/`AssetProbeFailed`), but `getAssetDuration`
catches the failure and returns duration 0: at the concrete probe failure
`ENOENT` the call succeeds with 0 instead of failing. -/
theorem C4_counterexample :
    getAssetDuration AssetType.video
      (Except.error "ENOENT: no such file or directory") =
    Except.ok (JSNum.finite 0) := by
  rfl

/-- C4, amended: a probe failure on a single asset is not fatal —
`getAssetDuration` catches the failure (whether the file is missing or the
probe fails otherwise), logs it, and continues with the best-effort default
duration 0; an unparsable probe output is likewise mapped to 0; no
`AssetMissing` or `AssetProbeFailed` error is raised. -/
theorem C4_probe_failure_returns_zero :
    ∀ (type : AssetType) (e : String),
      getAssetDuration type (Except.error e) = Except.ok (JSNum.finite 0) ∧
    ∀ (out : String), jsParseFloat (jsTrim out) = none →
      getAssetDuration type (Except.ok out) = Except.ok (JSNum.finite 0) := by
  intro type e
  constructor
  · cases type <;> rfl
  · intro out h
    cases type <;> simp [getAssetDuration, h]

/-- C4, witness: the amended theorem applied at the concrete inputs
(`ENOENT` failure; stdout `"N/A"` which parses as NaN). -/
theorem C4_probe_failure_returns_zero_witness :
    getAssetDuration AssetType.audio (Except.error "ENOENT") =
      Except.ok (JSNum.finite 0) ∧
    getAssetDuration AssetType.audio (Except.ok "N/A") =
      Except.ok (JSNum.finite 0) :=
  ⟨(C4_probe_failure_returns_zero AssetType.audio "ENOENT").1,
   (C4_probe_failure_returns_zero AssetType.audio "ENOENT").2 "N/A" (by rfl)⟩

/-! ## C7 — overlay cache keys -/

/-- C7, counterexample: the spec claims the output (width, height) enter both
content keys, so that the same overlay at two different output resolutions
gets two different cache keys; in the code neither key hashes the dimensions,
and at these concrete inputs the keys for 1920×1080 and 1080×1920 coincide. -/
theorem C7_counterexample :
    renderContainerCacheKey ⟨"<h1>Title</h1>", "h1 color red", 1920, 1080⟩ =
      renderContainerCacheKey ⟨"<h1>Title</h1>", "h1 color red", 1080, 1920⟩ ∧
    renderAppCacheKey ⟨"app1", "./apps/intro", [("k", "v")], 1920, 1080,
        "youtube", "My title", some "2024-01-01", ["tag1", "tag2"]⟩ =
      renderAppCacheKey ⟨"app1", "./apps/intro", [("k", "v")], 1080, 1920,
        "youtube", "My title", some "2024-01-01", ["tag1", "tag2"]⟩ := by
  constructor <;> rfl

/-- C7, amended: the Container key is the 16-hex-digit SHA-256 over the inner
HTML and the CSS text only, and the App key is over the source directory
path, the JSON-stringified parameters, the title, the date, the tags joined
with `,` and the output name only — the output (width, height) enters
neither, so rendering the same overlay at two different output resolutions
yields the *same* cache key. -/
theorem C7_cache_keys :
    (∀ html css : String, ∀ w1 h1 w2 h2 : ℕ,
      renderContainerCacheKey ⟨html, css, w1, h1⟩ =
        renderContainerCacheKey ⟨html, css, w2, h2⟩ ∧
      renderContainerCacheKey ⟨html, css, w1, h1⟩ = hashHex16 [html, css]) ∧
    (∀ o1 o2 : RenderAppOptions,
      o1.appSrc = o2.appSrc → o1.appParameters = o2.appParameters →
      o1.title = o2.title → o1.date = o2.date → o1.tags = o2.tags →
      o1.outputName = o2.outputName →
      renderAppCacheKey o1 = renderAppCacheKey o2) ∧
    (∀ o : RenderAppOptions,
      renderAppCacheKey o = hashHex16 [o.appSrc,
        jsonStringifyRecord o.appParameters, o.title, o.date.getD "",
        String.intercalate "," o.tags, o.outputName]) := by
  refine ⟨fun html css w1 h1 w2 h2 => ⟨rfl, rfl⟩, fun o1 o2 h1 h2 h3 h4 h5 h6 => ?_,
    fun o => rfl⟩
  simp [renderAppCacheKey, generateAppCacheKey, h1, h2, h3, h4, h5, h6]

/-- C7, witness: the amended theorem applied at concrete options differing
only in resolution. -/
theorem C7_cache_keys_witness :
    renderAppCacheKey ⟨"a", "./x", [], 100, 100, "out", "t", none, []⟩ =
      renderAppCacheKey ⟨"a", "./x", [], 200, 50, "out", "t", none, []⟩ :=
  C7_cache_keys.2.1
    ⟨"a", "./x", [], 100, 100, "out", "t", none, []⟩
    ⟨"a", "./x", [], 200, 50, "out", "t", none, []⟩
    rfl rfl rfl rfl rfl rfl

/-! ## C9 — determinism of the compile -/

/-- C9: for a fixed project and output, compiling is a pure function of the
`ProjectStructure`: the DAG is built from a fresh `StreamDAG` (counter 0, no
filters) inside `buildDAG`, no other state enters, and two compiles return a
byte-identical filter-graph string and an identical input-argument vector. -/
theorem C9_compile_deterministic :
    ∀ p : ProjectStructure,
      (generateFilterComplex p, ffmpegInputArgs p,
       generateFFmpegCommand p (generateFilterComplex p)) =
      (generateFilterComplex p, ffmpegInputArgs p,
       generateFFmpegCommand p (generateFilterComplex p)) ∧
      generateFilterComplex p = (buildDAG p).render := by
  intro p
  exact ⟨rfl, rfl⟩

/-! ## C8 — App render timeout -/

/-- Helper: a failing `renderApp` anywhere in the list makes `renderApps`
fail (earlier failures also abort, so the whole run errors either way). -/
theorem renderApps_error_of_mem (o : RenderAppOptions) (env : AppRenderEnv)
    (msg : String) (h : (renderApp o env).2 = Except.error msg) :
    ∀ (pre post : List (RenderAppOptions × AppRenderEnv)),
      ∃ e, (renderApps (pre ++ (o, env) :: post)).2 = Except.error e := by
  intro pre
  induction pre with
  | nil =>
    intro post
    refine ⟨msg, ?_⟩
    simp only [List.nil_append, renderApps]
    rw [h]
  | cons hd tl ih =>
    intro post
    obtain ⟨e, he⟩ := ih post
    simp only [List.cons_append, renderApps]
    match h2 : (renderApp hd.1 hd.2).2 with
    | Except.error e2 => exact ⟨e2, rfl⟩
    | Except.ok p =>
      refine ⟨e, ?_⟩
      simp only [List.append_eq] at he ⊢
      rw [he]
      rfl

/-- Helper: when the app runs fail, the pipeline never reaches the encoder. -/
theorem compileOutput_no_encode (apps : List (RenderAppOptions × AppRenderEnv))
    (e : String) (h : (renderApps apps).2 = Except.error e) :
    PipelineAction.encode ∉ (compileOutput apps).1 ∧
    (compileOutput apps).2 = Except.error e := by
  rcases hrr : renderApps apps with ⟨tr, res⟩
  rw [hrr] at h
  simp only at h
  subst h
  simp [compileOutput, hrr]

/-- C8: for an App (no cached PNG, `index.html` present) whose page never
sets `window.__stsRenderComplete`, the render fails with the hard-timeout
error naming the app id and the 5000 ms timeout; the flag was injected as
`false` before navigation (the effect trace is exactly
inject-false / navigate / close); no PNG write occurs; and no matter what
other apps the output renders, the pipeline errors and the encoder is never
invoked. -/
theorem C8_app_render_timeout :
    ∀ (o : RenderAppOptions) (env : AppRenderEnv),
      env.cacheHit = false → env.indexExists = true →
      env.rendersWithinTimeout = false →
      (renderApp o env).2 = Except.error ("App \"" ++ o.appId ++
        "\" did not set window.__stsRenderComplete within 5000ms") ∧
      (renderApp o env).1 = [BrowserAction.injectFlag false,
        BrowserAction.navigate, BrowserAction.closePage] ∧
      (∀ path, BrowserAction.writePng path ∉ (renderApp o env).1) ∧
      (∀ pre post, PipelineAction.encode ∉
          (compileOutput (pre ++ (o, env) :: post)).1 ∧
        ∃ e, (compileOutput (pre ++ (o, env) :: post)).2 = Except.error e) := by
  intro o env h1 h2 h3
  have hmsg : "App \"" ++ o.appId ++
      "\" did not set window.__stsRenderComplete within " ++
      toString RENDER_TIMEOUT_MS ++ "ms" =
      "App \"" ++ o.appId ++
      "\" did not set window.__stsRenderComplete within 5000ms" := by
    simp only [RENDER_TIMEOUT_MS, String.append_assoc]
    rfl
  have hr : renderApp o env =
      ([BrowserAction.injectFlag false, BrowserAction.navigate,
        BrowserAction.closePage],
       Except.error ("App \"" ++ o.appId ++
         "\" did not set window.__stsRenderComplete within 5000ms")) := by
    rw [← hmsg]
    simp [renderApp, h1, h2, h3]
  refine ⟨by rw [hr], by rw [hr], ?_, ?_⟩
  · intro path
    rw [hr]
    simp
  · intro pre post
    obtain ⟨e, he⟩ := renderApps_error_of_mem o env _ (by rw [hr]) pre post
    have := compileOutput_no_encode _ e he
    exact ⟨this.1, ⟨e, this.2⟩⟩

/-- C8, witness: the theorem applied to a concrete app and environment. -/
theorem C8_app_render_timeout_witness :
    (renderApp ⟨"intro_app", "./apps/intro", [], 1920, 1080, "youtube",
        "Title", none, []⟩ ⟨false, true, false⟩).2 =
      Except.error ("App \"intro_app\" did not set " ++
        "window.__stsRenderComplete within 5000ms") :=
  (C8_app_render_timeout
    ⟨"intro_app", "./apps/intro", [], 1920, 1080, "youtube", "Title", none, []⟩
    ⟨false, true, false⟩ rfl rfl rfl).1

/-! ## C6 — stable asset input indices -/

/-- The reference order of the spec's concrete instance: assets referenced in
the order (a, b, a, c). -/
def refsABAC : List (List String) := [["a", "b", "a", "c"]]

/-- C6: asset input indices are stable and dense.  (a) For references in
order (a, b, a, c) the assigned indices are (0, 1, 0, 2).  (b) For every
traversal, the map lists the names in first-appearance order paired with
`0, 1, 2, …`: the assigned indices are dense and start at 0, every assigned
index is below the number of distinct assets, and every such index is
assigned.  (c) The emitted `-i` input arguments are driven by the sorted
index list, which is ascending. -/
theorem C6_input_index_stability :
    (["a", "b", "a", "c"].map (getAssetInputIndex refsABAC) =
      [some 0, some 1, some 0, some 2]) ∧
    (∀ refsBySequence : List (List String),
      (buildAssetInputMap refsBySequence).map Prod.fst =
        firstUses refsBySequence.flatten ∧
      (buildAssetInputMap refsBySequence).map Prod.snd =
        List.range (firstUses refsBySequence.flatten).length ∧
      (∀ name idx, getAssetInputIndex refsBySequence name = some idx →
        idx < (firstUses refsBySequence.flatten).length) ∧
      (∀ i, i < (firstUses refsBySequence.flatten).length →
        ∃ name, (name, i) ∈ buildAssetInputMap refsBySequence)) ∧
    (∀ p : ProjectStructure,
      List.Pairwise (· ≤ ·) (ffmpegSortedIndices p) ∧
      ffmpegInputArgs p = (ffmpegSortedIndices p).filterMap (fun i =>
        (((ffmpegInputPairs p).find? (fun q => q.1 = i)).map Prod.snd).map
          (fun path => "-i \"" ++ path ++ "\""))) := by
  refine ⟨by decide, fun refs => ?_, fun p => ⟨?_, rfl⟩⟩
  · refine ⟨?_, ?_, ?_, ?_⟩
    · exact List.map_fst_zip _ _ (by simp)
    · exact List.map_snd_zip _ _ (by simp)
    · intro name idx h
      unfold getAssetInputIndex mapGet at h
      cases hf : (buildAssetInputMap refs).find? (fun pr => pr.1 = name) with
      | none => rw [hf] at h; simp at h
      | some pr =>
        rw [hf] at h
        simp at h
        obtain ⟨prn, pri⟩ := pr
        have hin : (prn, pri) ∈ buildAssetInputMap refs :=
          List.mem_of_find?_eq_some hf
        have h2 := (List.of_mem_zip (by simpa [buildAssetInputMap] using hin)).2
        rw [List.mem_range] at h2
        have : pri = idx := by simpa using h
        omega
    · intro i hi
      have hn : (buildAssetInputMap refs).length =
          (firstUses refs.flatten).length := by
        simp [buildAssetInputMap]
      have hi2 : i < (buildAssetInputMap refs).length := by omega
      refine ⟨(firstUses refs.flatten).get ⟨i, hi⟩, ?_⟩
      have hget : (buildAssetInputMap refs).get ⟨i, hi2⟩ =
          ((firstUses refs.flatten).get ⟨i, hi⟩, i) := by
        unfold buildAssetInputMap
        rw [List.get_eq_getElem, List.getElem_zip]
        simp
      have hmem := List.get_mem (buildAssetInputMap refs) i hi2
      rw [hget] at hmem
      exact hmem
  · have hs := @List.sorted_mergeSort ℕ
      (fun (a b : ℕ) => decide (a ≤ b))
      (fun a b c hab hbc => by simp at hab hbc ⊢; omega)
      (fun a b => by simp; omega)
      ((ffmpegInputPairs p).map Prod.fst)
    exact hs.imp (fun h => by simpa using h)

/-- C6, witness: the universal parts of the theorem applied at the concrete
(a, b, a, c) traversal. -/
theorem C6_input_index_stability_witness :
    2 < (firstUses refsABAC.flatten).length ∧
    (∃ name, (name, 1) ∈ buildAssetInputMap refsABAC) :=
  ⟨(C6_input_index_stability.2.1 refsABAC).2.2.1 "c" 2 (by decide),
   (C6_input_index_stability.2.1 refsABAC).2.2.2 1 (by decide)⟩

/-! ## C10 — `parseValueLazy` accepts any leading numeric prefix -/

/-- Bounds of a digit character's code. -/
theorem digit_bounds {c : Char} (h : isDigitCh c = true) :
    48 ≤ c.toNat ∧ c.toNat ≤ 57 := by
  simpa [isDigitCh] using h

/-- A digit differs from any character whose code is outside the digit
range. -/
theorem digit_ne {c : Char} (h : isDigitCh c = true) (d : Char)
    (hd : d.toNat < 48 ∨ 57 < d.toNat) : c ≠ d := by
  intro he
  have := digit_bounds h
  rw [he] at this
  omega

/-- A digit is not whitespace. -/
theorem digit_not_space {c : Char} (h : isDigitCh c = true) :
    isSpaceCh c = false := by
  have := digit_bounds h
  simp [isSpaceCh]
  omega

/-- A digit is a word character. -/
theorem digit_isWord {c : Char} (h : isDigitCh c = true) :
    isWordCh c = true := by
  have := digit_bounds h
  simp [isWordCh]
  omega

/-- `takeWhile`/`dropWhile` on an append whose left part satisfies `p` and
whose right part starts with a non-`p` element (or is empty). -/
theorem takeWhile_append_of {p : α → Bool} {l1 l2 : List α}
    (h1 : ∀ c ∈ l1, p c = true) (h2 : ∀ c, l2.head? = some c → p c = false) :
    (l1 ++ l2).takeWhile p = l1 ∧ (l1 ++ l2).dropWhile p = l2 := by
  induction l1 with
  | nil =>
    cases l2 with
    | nil => simp
    | cons x xs =>
      have := h2 x rfl
      simp [List.takeWhile_cons, List.dropWhile_cons, this]
  | cons x xs ih =>
    have hx := h1 x (by simp)
    have ihh := ih (fun c hc => h1 c (by simp [hc]))
    simp [List.takeWhile_cons, List.dropWhile_cons, hx, ihh.1, ihh.2]

/-- C10: `parseValueLazy` on a non-`calc()` string returns exactly what
`parseFloat` returns whenever that is not NaN, and rejects with the
`Invalid value` error exactly when `parseFloat` is NaN; moreover any string
with a leading decimal-number prefix — digits with an optional fraction,
followed by anything that does not extend the number — `parseFloat`s to just
that leading number, so such strings are silently accepted and truncated. -/
theorem C10_parseValueLazy_truncates :
    (∀ s : String, isCalcExpression s = false → jsParseFloat s = none →
      parseValueLazy (ValueInput.strV s) = Except.error
        ("Invalid value: \"" ++ s ++ "\". Expected number or calc() expression")) ∧
    (∀ (s : String) (x : JSNum), isCalcExpression s = false →
      jsParseFloat s = some x →
      parseValueLazy (ValueInput.strV s) = Except.ok (ParsedValue.num x)) ∧
    (∀ ds fs rest : List Char,
      ds ≠ [] → (∀ c ∈ ds, isDigitCh c = true) → (∀ c ∈ fs, isDigitCh c = true) →
      (∀ c, rest.head? = some c →
        isDigitCh c = false ∧ c ≠ '.' ∧ c ≠ 'e' ∧ c ≠ 'E') →
      jsParseFloat (String.mk
          (ds ++ (if fs.isEmpty then [] else '.' :: fs) ++ rest)) =
        some (JSNum.finite (decimalVal ds fs))) := by
  refine ⟨fun s hc hn => by simp [parseValueLazy, hc, hn],
          fun s x hc hx => by simp [parseValueLazy, hc, hx], ?_⟩
  intro ds fs rest hne hds hfs hrest
  match ds, hne with
  | d0 :: ds', _ =>
  have hd0 : isDigitCh d0 = true := hds d0 (by simp)
  have hmid : ∀ c, ((if fs.isEmpty then [] else '.' :: fs) ++ rest).head? = some c →
      isDigitCh c = false := by
    cases fs with
    | nil => intro c hc; simp at hc; exact (hrest c hc).1
    | cons f0 fs' =>
      intro c hc
      simp at hc
      rw [← hc]
      decide
  have hsplit := @takeWhile_append_of Char isDigitCh (d0 :: ds')
    ((if fs.isEmpty then [] else '.' :: fs) ++ rest) hds hmid
  have hfull : (String.mk ((d0 :: ds') ++
      (if fs.isEmpty then [] else '.' :: fs) ++ rest)).toList =
      (d0 :: ds') ++ ((if fs.isEmpty then [] else '.' :: fs) ++ rest) := by simp
  have hnospace : ((d0 :: ds') ++
      ((if fs.isEmpty then [] else '.' :: fs) ++ rest)).dropWhile isSpaceCh =
      (d0 :: ds') ++ ((if fs.isEmpty then [] else '.' :: fs) ++ rest) := by
    rw [List.cons_append, List.dropWhile_cons, digit_not_space hd0]
    simp
  have hsign : signSplit ((d0 :: ds') ++
      ((if fs.isEmpty then [] else '.' :: fs) ++ rest)) =
      (1, (d0 :: ds') ++ ((if fs.isEmpty then [] else '.' :: fs) ++ rest)) := by
    rw [List.cons_append]
    simp only [signSplit]
    rw [if_neg (digit_ne hd0 '+' (by decide)), if_neg (digit_ne hd0 '-' (by decide))]
  have hinf : hasInfinityPrefix ((d0 :: ds') ++
      ((if fs.isEmpty then [] else '.' :: fs) ++ rest)) = false := by
    rw [List.cons_append]
    unfold hasInfinityPrefix
    rw [beq_eq_false_iff_ne]
    intro he
    have : d0 = 'I' := by
      have h8 : (8 : ℕ) = 7 + 1 := rfl
      rw [h8, List.take_succ_cons] at he
      exact (List.cons.injEq _ _ _ _ ▸ he).1
    exact digit_ne hd0 'I' (by decide) this
  have hdot : dotSplit ((if fs.isEmpty then [] else '.' :: fs) ++ rest) =
      (fs, rest) := by
    cases fs with
    | nil =>
      simp only [List.isEmpty_nil, if_true, List.nil_append]
      cases rest with
      | nil => rfl
      | cons r0 rs =>
        simp only [dotSplit]
        rw [if_neg (hrest r0 rfl).2.1]
    | cons f0 fs' =>
      have hx := @takeWhile_append_of Char isDigitCh (f0 :: fs')
        rest hfs (fun c hc => (hrest c hc).1)
      show dotSplit ('.' :: (f0 :: (fs' ++ rest))) = (f0 :: fs', rest)
      simp only [dotSplit, if_pos]
      rw [Prod.mk.injEq]
      exact ⟨hx.1, hx.2⟩
  have hexp : expSplit rest = 0 := by
    cases rest with
    | nil => rfl
    | cons r0 rs =>
      simp only [expSplit]
      rw [if_neg]
      rintro (rfl | rfl)
      · exact absurd rfl (hrest 'e' rfl).2.2.1
      · exact absurd rfl (hrest 'E' rfl).2.2.2
  unfold jsParseFloat
  rw [hfull, hnospace, hsign]
  simp only
  rw [hinf]
  simp only [Bool.false_eq_true, if_false]
  rw [hsplit.1, hsplit.2, hdot]
  simp only
  rw [hexp]
  have : ¬((d0 :: ds').isEmpty && fs.isEmpty) = true := by simp
  rw [if_neg this]
  simp

/-- C10, witness: `"5px"` parses to 5, `"3.5abc"` to 3.5, and `"px5"` (no
leading number) is rejected with the `Invalid value` error. -/
theorem C10_parseValueLazy_truncates_witness :
    jsParseFloat "5px" = some (JSNum.finite 5) ∧
    jsParseFloat "3.5abc" = some (JSNum.finite (7/2)) ∧
    parseValueLazy (ValueInput.strV "px5") = Except.error
      "Invalid value: \"px5\". Expected number or calc() expression" := by
  refine ⟨?_, ?_, ?_⟩
  · have h := C10_parseValueLazy_truncates.2.2 ['5'] [] ['p', 'x']
      (by decide) (by decide) (by decide) (by decide)
    rw [show (decimalVal ['5'] []) = 5 by
      show ((digitsVal ['5'] : ℚ) + (digitsVal [] : ℚ) / 10 ^ (0:ℕ)) = 5
      have h5 : digitsVal ['5'] = 5 := by decide
      have h0 : digitsVal [] = 0 := by decide
      rw [h5, h0]
      norm_num] at h
    simpa using h
  · have h := C10_parseValueLazy_truncates.2.2 ['3'] ['5'] ['a', 'b', 'c']
      (by decide) (by decide) (by decide) (by decide)
    rw [show (decimalVal ['3'] ['5']) = 7/2 by
      show ((digitsVal ['3'] : ℚ) + (digitsVal ['5'] : ℚ) / 10 ^ (1:ℕ)) = 7/2
      have h3 : digitsVal ['3'] = 3 := by decide
      have h5 : digitsVal ['5'] = 5 := by decide
      rw [h3, h5]
      norm_num] at h
    simpa using h
  · exact C10_parseValueLazy_truncates.1 "px5" (by decide) (by decide)

/-! ## C1 — cross-fade joining in `buildHybridGraph` -/

/-- The timeline cursor after placing fragment `idx` (the spec's
`timelineCursor` recurrence: the first fragment contributes its duration, and
every later fragment `i` contributes `overlayLeft i + duration i`). -/
def timelineCursorAfter (fragments : List Fragment) (idx : ℕ) : ℚ :=
  ((fragments.take (idx + 1)).map (fun f => f.duration)).sum +
  (((fragments.take (idx + 1)).drop 1).map (fun f => f.overlayLeft)).sum

/-- The cursor advance contributed by the first `j` fragments the xfade loop
processes. -/
def offAcc (rem : List Fragment) (j : ℕ) : ℚ :=
  ((rem.take j).map (fun f => f.overlayLeft + f.duration)).sum

/-- Unfolding equation: the loop on an empty list is the identity. -/
theorem hybridLoop_nil (m : List (String × ℕ)) (out cur : String) (t : ℚ)
    (st : StreamDAG) : hybridLoop m out cur t [] st = st := rfl

/-- Unfolding equation: the last fragment is joined to `outputLabel`. -/
theorem hybridLoop_last (m : List (String × ℕ)) (out cur : String) (t : ℚ)
    (st : StreamDAG) (f : Fragment) :
    hybridLoop m out cur t [f] st =
      ((fromScaleFps (fragInputLabel m f) st).2).add
        (makeXFadeFC cur (fromScaleFps (fragInputLabel m f) st).1 out
          (|f.overlayLeft| / 1000) ((t + f.overlayLeft) / 1000) none) := rfl

/-- Unfolding equation: an intermediate fragment is joined to a fresh label
and the loop continues with the advanced cursor. -/
theorem hybridLoop_cons (m : List (String × ℕ)) (out cur : String) (t : ℚ)
    (st : StreamDAG) (f r0 : Fragment) (rs : List Fragment) :
    hybridLoop m out cur t (f :: r0 :: rs) st =
      hybridLoop m out ((fromScaleFps (fragInputLabel m f) st).2).mint.1
        (t + f.overlayLeft + f.duration) (r0 :: rs)
        ((((fromScaleFps (fragInputLabel m f) st).2).mint.2).add
          (makeXFadeFC cur (fromScaleFps (fragInputLabel m f) st).1
            ((fromScaleFps (fragInputLabel m f) st).2).mint.1
            (|f.overlayLeft| / 1000) ((t + f.overlayLeft) / 1000) none)) := rfl

/-- `fromScaleFps` only appends filters. -/
theorem fromScaleFps_filters_mono (input : String) (st : StreamDAG) :
    ∃ two, (fromScaleFps input st).2.filters = st.filters ++ two :=
  ⟨[makeScale input ("L" ++ toString st.counter) 1920 1080,
    makeFps ("L" ++ toString st.counter) ("L" ++ toString (st.counter + 1)) 30],
   by simp [fromScaleFps, StreamDAG.mint, StreamDAG.add]⟩

/-- The xfade loop only appends filters. -/
theorem hybridLoop_filters_mono (m : List (String × ℕ)) (out : String) :
    ∀ (rem : List Fragment) (cur : String) (t : ℚ) (st : StreamDAG),
      ∃ tail, (hybridLoop m out cur t rem st).filters = st.filters ++ tail := by
  intro rem
  induction rem with
  | nil => exact fun cur t st => ⟨[], by simp [hybridLoop_nil]⟩
  | cons f rest ih =>
    intro cur t st
    obtain ⟨two, htwo⟩ :=
      fromScaleFps_filters_mono (fragInputLabel m f) st
    cases rest with
    | nil =>
      rw [hybridLoop_last]
      exact ⟨two ++ [makeXFadeFC cur (fromScaleFps (fragInputLabel m f) st).1 out
          (|f.overlayLeft| / 1000) ((t + f.overlayLeft) / 1000) none],
        by simp [StreamDAG.add, htwo]⟩
    | cons r0 rs =>
      rw [hybridLoop_cons]
      obtain ⟨tail, htail⟩ := ih _ _ _
      rw [htail]
      refine ⟨two ++ [makeXFadeFC cur (fromScaleFps (fragInputLabel m f) st).1
          ((fromScaleFps (fragInputLabel m f) st).2).mint.1
          (|f.overlayLeft| / 1000) ((t + f.overlayLeft) / 1000) none] ++ tail, ?_⟩
      simp [StreamDAG.add, StreamDAG.mint, htwo]

/-- Every fragment the xfade loop processes is joined by an xfade whose
duration is `|overlayLeft| / 1000` seconds and whose offset is the running
cursor plus `overlayLeft`, divided by 1000. -/
theorem hybridLoop_emits_xfade (m : List (String × ℕ)) (out : String) :
    ∀ (rem : List Fragment) (j : ℕ) (hj : j < rem.length) (cur : String)
      (t : ℚ) (st : StreamDAG),
      ∃ a b o,
        makeXFadeFC a b o (|(rem.get ⟨j, hj⟩).overlayLeft| / 1000)
            ((t + offAcc rem j + (rem.get ⟨j, hj⟩).overlayLeft) / 1000) none ∈
          (hybridLoop m out cur t rem st).filters := by
  intro rem
  induction rem with
  | nil => intro j hj; simp at hj
  | cons f rest ih =>
    intro j hj cur t st
    match j with
    | 0 =>
      have hacc : t + offAcc (f :: rest) 0 + f.overlayLeft = t + f.overlayLeft := by
        simp [offAcc]
      cases rest with
      | nil =>
        rw [hybridLoop_last]
        refine ⟨cur, (fromScaleFps (fragInputLabel m f) st).1, out, ?_⟩
        have hg0 : ([f].get ⟨0, hj⟩) = f := rfl
        rw [hg0, hacc]
        simp [StreamDAG.add]
      | cons r0 rs =>
        rw [hybridLoop_cons]
        obtain ⟨tail, htail⟩ := hybridLoop_filters_mono m out (r0 :: rs)
          ((fromScaleFps (fragInputLabel m f) st).2).mint.1
          (t + f.overlayLeft + f.duration)
          ((((fromScaleFps (fragInputLabel m f) st).2).mint.2).add
            (makeXFadeFC cur (fromScaleFps (fragInputLabel m f) st).1
              ((fromScaleFps (fragInputLabel m f) st).2).mint.1
              (|f.overlayLeft| / 1000) ((t + f.overlayLeft) / 1000) none))
        refine ⟨cur, (fromScaleFps (fragInputLabel m f) st).1,
          ((fromScaleFps (fragInputLabel m f) st).2).mint.1, ?_⟩
        have hg0 : ((f :: r0 :: rs).get ⟨0, hj⟩) = f := rfl
        rw [hg0, hacc, htail]
        simp [StreamDAG.add]
    | j' + 1 =>
      have hj' : j' < rest.length := by
        simp at hj
        omega
      cases rest with
      | nil => simp at hj'
      | cons r0 rs =>
        rw [hybridLoop_cons]
        have hget : (f :: r0 :: rs).get ⟨j' + 1, hj⟩ = (r0 :: rs).get ⟨j', hj'⟩ := rfl
        have harg : t + offAcc (f :: r0 :: rs) (j' + 1) +
            ((r0 :: rs).get ⟨j', hj'⟩).overlayLeft =
            (t + f.overlayLeft + f.duration) + offAcc (r0 :: rs) j' +
            ((r0 :: rs).get ⟨j', hj'⟩).overlayLeft := by
          simp only [offAcc, List.take_succ_cons, List.map_cons, List.sum_cons]
          ring
        rw [hget, harg]
        exact ih j' hj' _ _ _

/-- The internal overlaps of the concat prefix are all zero: every fragment
of `(drop 1 l).take (concatEndOf l)` has `overlayLeft = 0`. -/
theorem concat_prefix_zero (l : List Fragment) :
    ∀ fr ∈ (l.drop 1).take (concatEndOf l), fr.overlayLeft = 0 := by
  intro fr hfr
  rw [List.mem_iff_getElem] at hfr
  obtain ⟨i, hi, hget⟩ := hfr
  have hlen : i < (concatEndOf l) := by
    have := List.length_take (concatEndOf l) (l.drop 1)
    omega
  have hpref := @List.takeWhile_prefix Fragment (l.drop 1)
    (fun f => decide (f.overlayLeft = 0))
  have hi2 : i < ((l.drop 1).takeWhile
      (fun f => decide (f.overlayLeft = 0))).length := by
    simpa [concatEndOf] using hlen
  have hi3 : i < (l.drop 1).length := by
    have := hpref.length_le
    omega
  have hgw := hpref.getElem hi2
  have hmem := List.mem_takeWhile_imp
    (List.mem_iff_getElem.mpr ⟨i, hi2, rfl⟩)
  rw [hgw] at hmem
  have hget2 : (l.drop 1)[i] = fr := by
    rw [← hget]
    exact (List.getElem_take _).symm
  rw [hget2] at hmem
  simpa using hmem

/-- Splitting the cursor at a concat-prefix boundary `k` whose internal
overlaps vanish: the prefix durations plus the loop's accumulated advance
equal the timeline cursor. -/
theorem cursor_split (l : List Fragment) (k j : ℕ) (hk : 1 ≤ k)
    (hkl : k ≤ l.length)
    (hall : ∀ fr ∈ (l.drop 1).take (k - 1), fr.overlayLeft = 0) :
    ((l.take k).map (fun f => f.duration)).sum + offAcc (l.drop k) j =
      timelineCursorAfter l (k + j - 1) := by
  have hkj : k + j - 1 + 1 = k + j := by omega
  unfold timelineCursorAfter offAcc
  rw [hkj, List.take_add]
  rw [List.map_append, List.sum_append]
  rw [List.drop_append_of_le_length (by
    have := List.length_take k l
    simp [this]
    omega)]
  rw [List.map_append, List.sum_append]
  have hzero : (((l.take k).drop 1).map (fun f => f.overlayLeft)).sum = 0 := by
    apply List.sum_eq_zero
    intro x hx
    rw [List.mem_map] at hx
    obtain ⟨fr, hfr, hfx⟩ := hx
    rw [← hfx]
    apply hall
    rw [List.drop_take] at hfr
    exact hfr
  rw [hzero]
  rw [List.sum_map_add]
  ring

/-- C1, amended (universal part): in `buildHybridGraph`, every fragment at
position `g ≥ 1` whose `overlap-left` is negative is joined by a video
`xfade` whose duration is `|overlap-left| / 1000` seconds and whose offset is
`(timelineCursor + overlap-left) / 1000` seconds, where `timelineCursor` is
the cursor after the previous fragment. -/
theorem buildHybridGraph_xfade (fragments : List Fragment)
    (m : List (String × ℕ)) (outputLabel : String) (st : StreamDAG)
    (g : ℕ) (hg2 : g < fragments.length) (hg1 : 1 ≤ g)
    (hneg : (fragments.get ⟨g, hg2⟩).overlayLeft < 0) :
    ∃ a b o,
      makeXFadeFC a b o (|(fragments.get ⟨g, hg2⟩).overlayLeft| / 1000)
          ((timelineCursorAfter fragments (g - 1) +
            (fragments.get ⟨g, hg2⟩).overlayLeft) / 1000) none ∈
        (buildHybridGraph st fragments m outputLabel).filters := by
  match fragments, hg2 with
  | f0 :: rest, hg2 =>
  match g, hg1 with
  | g' + 1, _ =>
  have hg'len : g' < rest.length := by simp at hg2; omega
  -- the fragment at g'+1 cannot lie inside the zero-overlap concat prefix
  have hce : concatEndOf (f0 :: rest) ≤ g' := by
    by_contra hlt
    push_neg at hlt
    have h0 := concat_prefix_zero (f0 :: rest)
      ((f0 :: rest).get ⟨g' + 1, hg2⟩)
      (by
        rw [List.mem_iff_getElem]
        refine ⟨g', ?_, ?_⟩
        · simp
          have := List.length_take (concatEndOf (f0 :: rest)) rest
          constructor
          · omega
          · omega
        · rw [List.getElem_take]
          rfl)
    rw [h0] at hneg
    simp at hneg
  unfold buildHybridGraph
  simp only
  split
  · -- concat prefix of length ce+1, then the loop
    rename_i hce1
    have hlen2 : g' - concatEndOf (f0 :: rest) <
        ((f0 :: rest).drop (concatEndOf (f0 :: rest) + 1)).length := by
      simp
      simp at hg2
      omega
    obtain ⟨a, b, o, hmem⟩ := hybridLoop_emits_xfade m outputLabel
      ((f0 :: rest).drop (concatEndOf (f0 :: rest) + 1))
      (g' - concatEndOf (f0 :: rest)) hlen2 _ _ _
    have hgetd : ((f0 :: rest).drop (concatEndOf (f0 :: rest) + 1)).get
        ⟨g' - concatEndOf (f0 :: rest), hlen2⟩ =
        (f0 :: rest).get ⟨g' + 1, hg2⟩ := by
      show (List.drop (concatEndOf (f0 :: rest) + 1)
          (f0 :: rest))[g' - concatEndOf (f0 :: rest)] = (f0 :: rest)[g' + 1]
      rw [List.getElem_drop]
      congr 1
      omega
    rw [hgetd] at hmem
    have hcur := cursor_split (f0 :: rest) (concatEndOf (f0 :: rest) + 1)
      (g' - concatEndOf (f0 :: rest)) (by omega)
      (by
        have := (@List.takeWhile_prefix Fragment rest
          (fun f => decide (f.overlayLeft = 0))).length_le
        simp only [concatEndOf, List.drop_succ_cons, List.drop_zero,
          List.length_cons] at this ⊢
        omega)
      (by simpa using concat_prefix_zero (f0 :: rest))
    rw [show concatEndOf (f0 :: rest) + 1 + (g' - concatEndOf (f0 :: rest)) - 1 =
        g' from by omega] at hcur
    rw [hcur] at hmem
    exact ⟨a, b, o, hmem⟩
  · -- no concat prefix: the loop starts at the second fragment
    rename_i hce0
    have hce0' : concatEndOf (f0 :: rest) = 0 := by omega
    have hlen2 : g' < rest.length := hg'len
    obtain ⟨a, b, o, hmem⟩ := hybridLoop_emits_xfade m outputLabel
      rest g' hlen2 _ _ _
    have hgetd : rest.get ⟨g', hlen2⟩ = (f0 :: rest).get ⟨g' + 1, hg2⟩ := rfl
    rw [hgetd] at hmem
    have hcur := cursor_split (f0 :: rest) 1 g' (by omega)
      (by simp)
      (by simp)
    rw [show (1 : ℕ) + g' - 1 = g' from by omega] at hcur
    simp only [List.take_succ_cons, List.take_zero, List.map_cons, List.map_nil,
      List.sum_cons, List.sum_nil, add_zero, List.drop_succ_cons, List.drop_zero] at hcur
    rw [hcur] at hmem
    exact ⟨a, b, o, hmem⟩

/-- The S3 scenario of the spec: a 3000 ms fragment followed by a 3000 ms
fragment with `overlap-left = -1000`. -/
def s3FragmentA : Fragment := ⟨"a", AssetType.video, 3000, 0, 0, "", "", "", "", 0⟩

/-- The second S3 fragment (cross-fades into the first). -/
def s3FragmentB : Fragment :=
  ⟨"b", AssetType.video, 3000, -1000, 0, "", "", "", "", 0⟩

/-- The filter graph the generator emits for the S3 scenario. -/
def s3Graph : String :=
  (generateSequenceGraph StreamDAG.empty ⟨[s3FragmentA, s3FragmentB]⟩
    [("a", 0), ("b", 1)] "outv").render

set_option maxRecDepth 100000 in
/-- C1, counterexample: the claim also asserts the audio streams are joined
with an `acrossfade` of matching duration, but the hybrid generator joins
only video: the S3 graph is exactly the video chain ending in
`xfade=transition=fade:duration=1:offset=2` and contains no `acrossfade`
anywhere. -/
theorem C1_counterexample :
    s3Graph = "[0:v]scale=w=1920:h=1080[L0];[L0]fps=fps=30[L1];" ++
      "[1:v]scale=w=1920:h=1080[L2];[L2]fps=fps=30[L3];" ++
      "[L1][L3]xfade=transition=fade:duration=1:offset=2[outv]" ∧
    ¬ ("acrossfade".toList <:+: s3Graph.toList) := by
  have he : s3Graph = "[0:v]scale=w=1920:h=1080[L0];[L0]fps=fps=30[L1];" ++
      "[1:v]scale=w=1920:h=1080[L2];[L2]fps=fps=30[L3];" ++
      "[L1][L3]xfade=transition=fade:duration=1:offset=2[outv]" := by
    with_unfolding_all rfl
  refine ⟨he, ?_⟩
  rw [he]
  decide

set_option maxRecDepth 100000 in
/-- C1, amended: in the joining step, every fragment at position `g ≥ 1`
whose `overlap-left` is negative is joined on the video side by an `xfade`
whose duration is `|overlap-left|/1000` seconds and whose offset is
`(timelineCursor + overlap-left)/1000` seconds; no audio join (`acrossfade`)
is emitted — the hybrid generator handles only video streams.  For the
concrete S3 case this yields `xfade=transition=fade:duration=1:offset=2`. -/
theorem C1_xfade_join :
    (∀ (fragments : List Fragment) (m : List (String × ℕ))
       (outputLabel : String) (st : StreamDAG) (g : ℕ)
       (hg2 : g < fragments.length), 1 ≤ g →
       (fragments.get ⟨g, hg2⟩).overlayLeft < 0 →
       ∃ a b o,
         makeXFadeFC a b o (|(fragments.get ⟨g, hg2⟩).overlayLeft| / 1000)
             ((timelineCursorAfter fragments (g - 1) +
               (fragments.get ⟨g, hg2⟩).overlayLeft) / 1000) none ∈
           (buildHybridGraph st fragments m outputLabel).filters) ∧
    ("xfade=transition=fade:duration=1:offset=2".toList <:+: s3Graph.toList) :=
  ⟨fun fragments m outputLabel st g hg2 hg1 hneg =>
    buildHybridGraph_xfade fragments m outputLabel st g hg2 hg1 hneg,
   by
    have he : s3Graph = "[0:v]scale=w=1920:h=1080[L0];[L0]fps=fps=30[L1];" ++
        "[1:v]scale=w=1920:h=1080[L2];[L2]fps=fps=30[L3];" ++
        "[L1][L3]xfade=transition=fade:duration=1:offset=2[outv]" := by
      with_unfolding_all rfl
    rw [he]
    decide⟩

set_option maxRecDepth 100000 in
/-- C1, witness: the amended theorem applied to the S3 fragments at `g = 1`
(overlap `-1000` against a cursor of 3000 ms: duration 1 s, offset 2 s). -/
theorem C1_xfade_join_witness :
    s3FragmentB.overlayLeft < 0 ∧
    (∃ a b o,
      makeXFadeFC a b o (|s3FragmentB.overlayLeft| / 1000)
          ((timelineCursorAfter [s3FragmentA, s3FragmentB] 0 +
            s3FragmentB.overlayLeft) / 1000) none ∈
        (buildHybridGraph StreamDAG.empty [s3FragmentA, s3FragmentB]
          [("a", 0), ("b", 1)] "outv").filters) :=
  ⟨by decide,
   C1_xfade_join.1 [s3FragmentA, s3FragmentB] [("a", 0), ("b", 1)] "outv"
     StreamDAG.empty 1 (by decide) (by decide) (by decide)⟩

/-! ### C2: the concat factorization

Helper lemmas about `chunksOf`, and the factorization theorem: for a label
list made of `k` segments each carrying `v ≥ 1` video and `a ≥ 1` audio
labels, `k` is the largest valid factor and `makeConcatTriple` selects
`(k, v, a)`.  (With `a = 0` the claim fails: an all-video list of length 2
is one segment with `v = 2`, yet the maximizing search picks `n = 2`.) -/

lemma chunksOfF_succ {α : Type} (s n : ℕ) (hs : s ≠ 0) (x : α) (t : List α) :
    chunksOfF s (n + 1) (x :: t) = (x :: t).take s :: chunksOfF s n ((x :: t).drop s) := by
  simp [chunksOfF, hs]

lemma chunksOfF_eq_of_le {α : Type} (s : ℕ) (hs : s ≠ 0) :
    ∀ (fuel : ℕ) (l : List α), l.length ≤ fuel →
      chunksOfF s fuel l = chunksOfF s l.length l := by
  intro fuel
  induction fuel using Nat.strong_induction_on with
  | _ fuel ih =>
    match fuel, ih with
    | 0, _ =>
      intro l hl
      have : l = [] := List.length_eq_zero.mp (Nat.le_zero.mp hl)
      subst this
      rfl
    | n + 1, ih =>
      intro l hl
      cases l with
      | nil => rfl
      | cons x t =>
        have hl' : t.length ≤ n := by simpa using hl
        have hdrop : ((x :: t).drop s).length ≤ t.length := by
          simp only [List.length_drop, List.length_cons]
          omega
        show chunksOfF s (n + 1) (x :: t) = chunksOfF s (t.length + 1) (x :: t)
        rw [chunksOfF_succ s n hs x t, chunksOfF_succ s t.length hs x t,
          ih n (by omega) _ (le_trans hdrop hl'), ih t.length (by omega) _ hdrop]

lemma chunksOf_ne_nil {α : Type} (s : ℕ) (hs : s ≠ 0) (l : List α) (hl : l ≠ []) :
    chunksOf s l = l.take s :: chunksOf s (l.drop s) := by
  cases l with
  | nil => exact absurd rfl hl
  | cons x t =>
    show chunksOfF s (t.length + 1) (x :: t) = _
    rw [chunksOfF_succ s t.length hs x t,
      chunksOfF_eq_of_le s hs t.length ((x :: t).drop s)
        (by simp only [List.length_drop, List.length_cons]; omega)]
    rfl

lemma chunksOf_append {α : Type} (s : ℕ) (l₁ l₂ : List α)
    (h : l₁.length = s) (hne : l₁ ≠ []) :
    chunksOf s (l₁ ++ l₂) = l₁ :: chunksOf s l₂ := by
  subst h
  have happ : l₁ ++ l₂ ≠ [] := by
    cases l₁ with
    | nil => exact absurd rfl hne
    | cons x t => simp
  rw [chunksOf_ne_nil l₁.length (by cases l₁ with | nil => exact absurd rfl hne | cons x t => simp) _ happ,
    List.take_left, List.drop_left]

lemma chunksOf_flatten_uniform {α : Type} (s : ℕ) (hs : 1 ≤ s) :
    ∀ segs : List (List α), (∀ seg ∈ segs, seg.length = s) →
      chunksOf s segs.flatten = segs := by
  intro segs
  induction segs with
  | nil => intro _; rfl
  | cons seg rest ih =>
    intro h
    have hlen : seg.length = s := h seg (by simp)
    have hne : seg ≠ [] := by
      intro he
      rw [he] at hlen
      simp at hlen
      omega
    rw [List.flatten_cons, chunksOf_append s seg rest.flatten hlen hne,
      ih (fun g hg => h g (by simp [hg]))]

lemma chunksOf_mem_drop {α : Type} (s : ℕ) (hs : 1 ≤ s) :
    ∀ (n : ℕ) (l : List α) (m : ℕ), l.length = n * s → m < n →
      (l.drop (m * s)).take s ∈ chunksOf s l := by
  intro n
  induction n with
  | zero =>
    intro l m _ hm
    omega
  | succ n ih =>
    intro l m hl hm
    have hne : l ≠ [] := by
      intro he
      subst he
      simp at hl
      have := Nat.mul_pos (Nat.succ_pos n) (show 0 < s by omega)
      omega
    rw [chunksOf_ne_nil s (by omega) l hne]
    cases m with
    | zero =>
      simp
    | succ m' =>
      apply List.mem_cons_of_mem
      have hdl : (l.drop s).length = n * s := by
        rw [List.length_drop, hl, Nat.succ_mul]
        omega
      have hIH := ih (l.drop s) m' hdl (by omega)
      rw [List.drop_drop] at hIH
      have : s + m' * s = (m' + 1) * s := by rw [Nat.succ_mul]; omega
      rw [this] at hIH
      exact hIH

lemma concatPattern_length (v a : ℕ) : (concatPattern v a).length = v + a := by
  simp [concatPattern]

lemma concatPattern_getElem? (v a q : ℕ) (h : q < v + a) :
    (concatPattern v a)[q]? = some (decide (v ≤ q)) := by
  rw [concatPattern, List.getElem?_append]
  by_cases hq : q < v
  · rw [if_pos (by simpa using hq), List.getElem?_replicate, if_pos hq]
    have : ¬ v ≤ q := by omega
    simp [this]
  · rw [if_neg (by simpa using hq), List.getElem?_replicate,
      if_pos (by simp only [List.length_replicate]; omega)]
    have : v ≤ q := by omega
    simp [this]

lemma takeWhile_len_of_pattern (seg : List Label) (v a : ℕ) (ha : 1 ≤ a)
    (h : seg.map (fun l => l.isAudio) = concatPattern v a) :
    (seg.takeWhile (fun l => !l.isAudio)).length = v := by
  have hcong := congrArg (List.takeWhile (fun b => !b)) h
  rw [List.takeWhile_map] at hcong
  have hpat : (concatPattern v a).takeWhile (fun b => !b) = List.replicate v false := by
    rw [concatPattern]
    cases a with
    | zero => omega
    | succ a' =>
      rw [List.replicate_succ]
      exact (takeWhile_append_of
        (fun c hc => by simp [List.eq_of_mem_replicate hc])
        (fun c hc => by simp at hc; rw [hc]; rfl)).1
  rw [hpat] at hcong
  have hlen := congrArg List.length hcong
  simpa [Function.comp] using hlen

lemma flat_length (k v a : ℕ) (segs : List (List Label))
    (hlen : segs.length = k)
    (hseg : ∀ seg ∈ segs, seg.map (fun l => l.isAudio) = concatPattern v a) :
    segs.flatten.length = k * (v + a) := by
  rw [List.length_flatten]
  have hmap : segs.map List.length = List.replicate k (v + a) := by
    rw [List.eq_replicate_iff]
    refine ⟨by simpa using hlen, ?_⟩
    intro b hb
    rw [List.mem_map] at hb
    obtain ⟨seg, hsegmem, hbeq⟩ := hb
    have := congrArg List.length (hseg seg hsegmem)
    simpa [concatPattern_length, hbeq] using this
  rw [hmap, List.sum_replicate, smul_eq_mul]

lemma flat_getElem? (v a : ℕ) (seg₀ : List Label) (rest : List (List Label))
    (h₀ : seg₀.map (fun l => l.isAudio) = concatPattern v a) :
    ∀ q, q < v + a →
      ((seg₀ :: rest).flatten[q]?).map (fun l => l.isAudio) = some (decide (v ≤ q)) := by
  intro q hq
  have hlen : seg₀.length = v + a := by
    have := congrArg List.length h₀
    simpa [concatPattern_length] using this
  rw [List.flatten_cons, List.getElem?_append, if_pos (by omega),
    ← List.getElem?_map, h₀, concatPattern_getElem? v a q hq]

lemma flat_take_head (v a : ℕ) (ha : 1 ≤ a) (seg₀ : List Label) (rest : List (List Label))
    (h₀ : seg₀.map (fun l => l.isAudio) = concatPattern v a) :
    (((seg₀ :: rest).flatten.take (v + a)).takeWhile (fun l => !l.isAudio)).length = v := by
  have hlen : seg₀.length = v + a := by
    have := congrArg List.length h₀
    simpa [concatPattern_length] using this
  have htake : (seg₀ :: rest).flatten.take (v + a) = seg₀ := by
    rw [List.flatten_cons, ← hlen, List.take_left]
  rw [htake]
  exact takeWhile_len_of_pattern seg₀ v a ha h₀

lemma validFactor_flatten (k v a : ℕ) (segs : List (List Label))
    (hk : 1 ≤ k) (hv : 1 ≤ v) (ha : 1 ≤ a) (hlen : segs.length = k)
    (hseg : ∀ seg ∈ segs, seg.map (fun l => l.isAudio) = concatPattern v a) :
    validFactor segs.flatten k = true := by
  have hL := flat_length k v a segs hlen hseg
  have hdiv : segs.flatten.length / k = v + a := by
    rw [hL]
    exact Nat.mul_div_cancel_left _ (by omega)
  have hmod : segs.flatten.length % k = 0 := by
    rw [hL]
    exact Nat.mul_mod_right k (v + a)
  have hseglen : ∀ seg ∈ segs, seg.length = v + a := by
    intro seg hg
    have := congrArg List.length (hseg seg hg)
    simpa [concatPattern_length] using this
  cases segs with
  | nil => simp at hlen; omega
  | cons seg₀ rest =>
    have hv' := flat_take_head v a ha seg₀ rest (hseg seg₀ (by simp))
    simp only [validFactor, hdiv, hv', hmod, bne_iff_ne, ne_eq, beq_self_eq_true,
      Bool.and_eq_true, decide_eq_true_eq, List.all_eq_true, beq_iff_eq]
    refine ⟨⟨by omega, trivial⟩, ?_⟩
    rw [chunksOf_flatten_uniform (v + a) (by omega) _ hseglen]
    intro c hc
    have : v + a - v = a := by omega
    rw [this]
    exact hseg c hc

lemma validFactor_le (k v a : ℕ) (L : List Label)
    (hk : 1 ≤ k) (hv : 1 ≤ v) (ha : 1 ≤ a)
    (hL : L.length = k * (v + a))
    (hB : ∀ q, q < v + a → (L[q]?).map (fun l => l.isAudio) = some (decide (v ≤ q)))
    (n : ℕ) (hn : validFactor L n = true) : n ≤ k := by
  by_contra hcon
  push_neg at hcon
  simp only [validFactor, Bool.and_eq_true, bne_iff_ne, ne_eq, beq_iff_eq,
    List.all_eq_true] at hn
  obtain ⟨⟨hn0, hmod⟩, hall⟩ := hn
  have hvapos : 0 < v + a := by omega
  have hLpos : 0 < L.length := by
    rw [hL]
    exact Nat.mul_pos (by omega) hvapos
  have hnle : n ≤ L.length := by
    by_contra hgt
    push_neg at hgt
    rw [Nat.mod_eq_of_lt hgt] at hmod
    omega
  have hspos : 1 ≤ L.length / n := (Nat.one_le_div_iff (by omega)).mpr hnle
  have hdvd : n ∣ L.length := Nat.dvd_of_mod_eq_zero hmod
  have hsn : L.length / n * n = L.length := Nat.div_mul_cancel hdvd
  set s := L.length / n with hs_def
  set v' := ((L.take s).takeWhile (fun l => !l.isAudio)).length with hv'_def
  have hslt : s < v + a := by
    by_contra hge
    push_neg at hge
    have h1 : (v + a) * n ≤ s * n := mul_le_mul_right' hge n
    have h2 : k * (v + a) < n * (v + a) := mul_lt_mul_of_pos_right hcon hvapos
    have : L.length < L.length := by
      calc L.length = k * (v + a) := hL
        _ < n * (v + a) := h2
        _ = (v + a) * n := Nat.mul_comm _ _
        _ ≤ s * n := h1
        _ = L.length := hsn
    omega
  have hLns : L.length = n * s := by rw [← hsn, Nat.mul_comm]
  have hper : ∀ q, q < L.length →
      (L[q]?).map (fun l => l.isAudio) = (concatPattern v' (s - v'))[q % s]? := by
    intro q hq
    have hm : q / s < n := Nat.div_lt_of_lt_mul (by rwa [hLns, Nat.mul_comm] at hq)
    have hmem : ((L.drop (q / s * s)).take s) ∈ chunksOf s L :=
      chunksOf_mem_drop s hspos n L (q / s) hLns hm
    have hc := hall _ hmem
    have hqs : q % s < s := Nat.mod_lt _ (by omega)
    have hqi : q / s * s + q % s = q := by
      rw [Nat.mul_comm]
      exact Nat.div_add_mod q s
    have h1 : (((L.drop (q / s * s)).take s)[q % s]?).map (fun l => l.isAudio)
        = (concatPattern v' (s - v'))[q % s]? := by
      rw [← List.getElem?_map, hc]
    rw [← h1, List.getElem?_take, if_pos hqs, List.getElem?_drop, hqi]
  have h0F : (concatPattern v' (s - v'))[0]? = some false := by
    have h1 := hper 0 (by omega)
    rw [hB 0 (by omega), Nat.zero_mod] at h1
    rw [← h1]
    simp [show ¬ v ≤ 0 by omega]
  have hvltL : v < L.length := by
    rw [hL]
    calc v < v + a := by omega
      _ = 1 * (v + a) := by omega
      _ ≤ k * (v + a) := mul_le_mul_right' hk _
  have hvT : (concatPattern v' (s - v'))[v % s]? = some true := by
    have h1 := hper v hvltL
    rw [hB v (by omega)] at h1
    rw [← h1]
    simp
  have hrle : v % s ≤ v := Nat.mod_le v s
  have hrlt : v % s < s := Nat.mod_lt _ (by omega)
  by_cases hcase : v % s < v
  · have h2 := hper (v % s) (by omega)
    rw [hB (v % s) (by omega)] at h2
    rw [Nat.mod_eq_of_lt hrlt] at h2
    rw [hvT] at h2
    simp [show ¬ v ≤ v % s by omega] at h2
  · have hveq : v % s = v := by omega
    have hvs : v < s := by
      rcases Nat.lt_or_ge v s with h | h
      · exact h
      · rw [Nat.mod_eq_sub_mod h] at hveq
        omega
    have hsltL : s < L.length := by
      rw [hLns]
      calc s = 1 * s := by omega
        _ < n * s := by
          have : 2 * s ≤ n * s := mul_le_mul_right' (by omega) s
          omega
    have h2 := hper s (by omega)
    rw [hB s (by omega)] at h2
    rw [Nat.mod_self] at h2
    rw [h0F] at h2
    simp [show v ≤ s by omega] at h2

lemma searchFactor_finds (L : List Label) (k : ℕ)
    (hvk : validFactor L k = true)
    (hmax : ∀ n, validFactor L n = true → n ≤ k) :
    ∀ m, k ≤ m → searchFactor L m = some k := by
  intro m
  induction m with
  | zero =>
    intro hm
    have hk0 : k = 0 := by omega
    rw [hk0] at hvk
    simp [validFactor] at hvk
  | succ m ih =>
    intro hm
    rcases Nat.lt_or_ge k (m + 1) with hlt | hge
    · have hfalse : validFactor L (m + 1) = false := by
        by_contra hne
        have := hmax (m + 1) (by simpa using hne)
        omega
      show (if validFactor L (m + 1) = true then some (m + 1) else searchFactor L m) = some k
      rw [hfalse]
      simpa using ih (by omega)
    · have hkeq : k = m + 1 := by omega
      show (if validFactor L (m + 1) = true then some (m + 1) else searchFactor L m) = some k
      subst hkeq
      rw [if_pos hvk]

/-- C2: the concat factorization.  For every well-formed ordered label list
consisting of `k ≥ 1` segments each carrying `v ≥ 1` video and `a ≥ 1` audio
labels (interleaved per segment), `k` is a valid factor, it is the maximal
valid factor, and `makeConcat`'s factorization search selects exactly
`(n, v, a) = (k, v, a)`.  (The audio-free case `a = 0` is excluded: there the
maximizing search can return `n > k`, see the counterexample.) -/
theorem C2_concat_factorization (k v a : ℕ) (segs : List (List Label))
    (hk : 1 ≤ k) (hv : 1 ≤ v) (ha : 1 ≤ a) (hlen : segs.length = k)
    (hseg : ∀ seg ∈ segs, seg.map (fun l => l.isAudio) = concatPattern v a) :
    validFactor segs.flatten k = true ∧
    (∀ n, validFactor segs.flatten n = true → n ≤ k) ∧
    makeConcatTriple segs.flatten = some (k, v, a) := by
  have hvk := validFactor_flatten k v a segs hk hv ha hlen hseg
  have hL := flat_length k v a segs hlen hseg
  have hmax : ∀ n, validFactor segs.flatten n = true → n ≤ k := by
    intro n hn
    cases segs with
    | nil => simp at hlen; omega
    | cons seg₀ rest =>
      exact validFactor_le k v a _ hk hv ha hL
        (flat_getElem? v a seg₀ rest (hseg seg₀ (by simp))) n hn
  refine ⟨hvk, hmax, ?_⟩
  have hkle : k ≤ segs.flatten.length := by
    rw [hL]
    calc k = k * 1 := by omega
      _ ≤ k * (v + a) := Nat.mul_le_mul_left k (by omega)
  have hsearch : searchFactor segs.flatten segs.flatten.length = some k :=
    searchFactor_finds segs.flatten k hvk hmax segs.flatten.length hkle
  have hdiv : segs.flatten.length / k = v + a := by
    rw [hL]
    exact Nat.mul_div_cancel_left _ (by omega)
  cases segs with
  | nil => simp at hlen; omega
  | cons seg₀ rest =>
    have hv' := flat_take_head v a ha seg₀ rest (hseg seg₀ (by simp))
    simp only [makeConcatTriple, hsearch, hdiv, hv', Option.some.injEq, Prod.mk.injEq]
    exact ⟨trivial, trivial, by omega⟩

/-- C2 (counterexample): an all-video list of two labels is a well-formed
single segment carrying `v = 2` video and `a = 0` audio labels, yet the
factorization-maximizing search selects `(n, v, a) = (2, 1, 0)`, not the
claimed `(1, 2, 0)`: the claim fails for audio-free segments. -/
theorem C2_counterexample :
    (List.length [[Label.mk "x" false, Label.mk "y" false]] = 1 ∧
      ∀ seg ∈ [[Label.mk "x" false, Label.mk "y" false]],
        seg.map (fun l => l.isAudio) = concatPattern 2 0) ∧
    makeConcatTriple ([[Label.mk "x" false, Label.mk "y" false]] : List (List Label)).flatten
      = some (2, 1, 0) ∧
    some ((2 : ℕ), (1 : ℕ), (0 : ℕ)) ≠ some ((1 : ℕ), (2 : ℕ), (0 : ℕ)) := by
  refine ⟨⟨rfl, by decide⟩, by decide, by decide⟩

theorem C2_concat_factorization_witness :
    validFactor ([[Label.mk "v0" false, Label.mk "a0" true],
        [Label.mk "v1" false, Label.mk "a1" true]] : List (List Label)).flatten 2 = true ∧
    makeConcatTriple ([[Label.mk "v0" false, Label.mk "a0" true],
        [Label.mk "v1" false, Label.mk "a1" true]] : List (List Label)).flatten
      = some (2, 1, 1) :=
  ⟨(C2_concat_factorization 2 1 1
      [[Label.mk "v0" false, Label.mk "a0" true],
       [Label.mk "v1" false, Label.mk "a1" true]]
      (by decide) (by decide) (by decide) (by decide) (by decide)).1,
   (C2_concat_factorization 2 1 1
      [[Label.mk "v0" false, Label.mk "a0" true],
       [Label.mk "v1" false, Label.mk "a1" true]]
      (by decide) (by decide) (by decide) (by decide) (by decide)).2.2⟩

/-! ### C5: expression failure modes -/

/-- C5: the three genuine failure modes each surface a distinct error message
quoting the original expression text — a parse failure is wrapped as
`Failed to parse expression "<e>": …`, an unknown fragment id fails as
`Fragment with id "<id>" not found in expression: <e>`, and an unknown
property path fails as `Property "<p>" not found on fragment "<id>" in
expression: <e>` — while division never errors: `evalAExpr` maps a division
node of two evaluated operands to the JavaScript quotient, and the JavaScript
quotient of a positive number by zero is `Infinity`, not an error. -/
lemma except_error_bind {ε α β : Type} (m : ε) (f : α → Except ε β) :
    (Except.error m >>= f) = Except.error m := rfl

lemma except_ok_bind {ε α β : Type} (a : α) (f : α → Except ε β) :
    (Except.ok a >>= f : Except ε β) = f a := rfl

theorem C5_failure_modes :
    (∀ (s m : String), exprParse (transformExpressionToVariables s) = Except.error m →
      parseExpression s = Except.error
        ("Failed to parse expression \"" ++ s ++ "\": " ++ m)) ∧
    (∀ (compiled : CompiledExpression) (ctx : ExprContext) (id prop : String)
        (rest : List (String × String)),
      extractRefs compiled.original.toList = (id, prop) :: rest →
      mapGet ctx.fragments id = none →
      evaluateCompiledExpression compiled ctx = Except.error
        ("Fragment with id \"" ++ id ++ "\" not found in expression: " ++
          compiled.original)) ∧
    (∀ (compiled : CompiledExpression) (ctx : ExprContext) (id prop : String)
        (rest : List (String × String)) (frag : FragmentData),
      extractRefs compiled.original.toList = (id, prop) :: rest →
      mapGet ctx.fragments id = some frag →
      splitDots prop = [prop] →
      jvGet frag.toJValue prop = none →
      evaluateCompiledExpression compiled ctx = Except.error
        ("Property \"" ++ prop ++ "\" not found on fragment \"" ++ id ++
          "\" in expression: " ++ compiled.original)) ∧
    (∀ (bindings : List (String × JValue)) (a b : AExpr) (x y : JSNum),
      evalAExpr bindings a = Except.ok x → evalAExpr bindings b = Except.ok y →
      evalAExpr bindings (AExpr.div a b) = Except.ok (JSNum.jsDiv x y)) ∧
    (∀ q : ℚ, 0 < q →
      JSNum.jsDiv (JSNum.finite q) (JSNum.finite 0) = JSNum.posInf) := by
  refine ⟨?_, ?_, ?_, ?_, ?_⟩
  · intro s m h
    simp [parseExpression, h]
  · intro compiled ctx id prop rest href hmap
    have href' : extractRefs compiled.original.data = (id, prop) :: rest := href
    simp [evaluateCompiledExpression, href, href', resolveRef, hmap,
      List.foldlM_cons, except_error_bind, Except.map_error]
  · intro compiled ctx id prop rest frag href hmap hsplit hjv
    have href' : extractRefs compiled.original.data = (id, prop) :: rest := href
    simp [evaluateCompiledExpression, href, href', resolveRef, hmap, hsplit, hjv,
      List.foldlM_cons, except_error_bind, except_ok_bind, Except.map_error]
  · intro bindings a b x y ha hb
    simp [evalAExpr, ha, hb, except_ok_bind]
  · intro q hq
    simp [JSNum.jsDiv, hq]

theorem C5_failure_modes_witness :
    parseExpression "calc(" = Except.error
      ("Failed to parse expression \"" ++ "calc(" ++ "\": " ++ "unexpected token") ∧
    evaluateCompiledExpression
        (CompiledExpression.mk "calc(#frag.x + 1)" (AExpr.num 0)) (ExprContext.mk [])
      = Except.error ("Fragment with id \"" ++ "frag" ++
          "\" not found in expression: " ++ "calc(#frag.x + 1)") ∧
    evaluateCompiledExpression
        (CompiledExpression.mk "calc(#frag.x + 1)" (AExpr.num 0))
        (ExprContext.mk [("frag", FragmentData.mk (TimeData.mk 0 0 0))])
      = Except.error ("Property \"" ++ "x" ++ "\" not found on fragment \"" ++
          "frag" ++ "\" in expression: " ++ "calc(#frag.x + 1)") ∧
    evalAExpr [] (AExpr.div (AExpr.num 1) (AExpr.num 0))
      = Except.ok (JSNum.jsDiv (JSNum.finite 1) (JSNum.finite 0)) ∧
    JSNum.jsDiv (JSNum.finite 1) (JSNum.finite 0) = JSNum.posInf :=
  ⟨C5_failure_modes.1 "calc(" "unexpected token" (by rfl),
   C5_failure_modes.2.1 (CompiledExpression.mk "calc(#frag.x + 1)" (AExpr.num 0))
     (ExprContext.mk []) "frag" "x" [] (by decide) rfl,
   C5_failure_modes.2.2.1 (CompiledExpression.mk "calc(#frag.x + 1)" (AExpr.num 0))
     (ExprContext.mk [("frag", FragmentData.mk (TimeData.mk 0 0 0))]) "frag" "x" []
     (FragmentData.mk (TimeData.mk 0 0 0)) (by decide) rfl rfl rfl,
   C5_failure_modes.2.2.2.1 [] (AExpr.num 1) (AExpr.num 0)
     (JSNum.finite 1) (JSNum.finite 0) rfl rfl,
   C5_failure_modes.2.2.2.2 1 zero_lt_one⟩

/-- C5 (counterexample): the expression `calc(1/0)` — an arithmetic division
by zero — parses and evaluates to the numeric result `Infinity`; no error of
any kind is raised, refuting the claim that division by zero is a failure
mode. -/
theorem C5_counterexample :
    (parseExpression "calc(1/0)").map
      (fun ce => evaluateCompiledExpression ce (ExprContext.mk []))
      = Except.ok (Except.ok JSNum.posInf) := by
  with_unfolding_all rfl

/-! ### C3: unit normalization

Step and identity lemmas for the four replacement scanners and the
tokenizer, used to run the transformation pipeline symbolically over an
arbitrary decimal literal. -/

lemma calcScan_step (c : Char) (t : List Char) (hc : c ≠ 'c') :
    calcScan (c :: t) = c :: calcScan t := by
  rw [calcScan.eq_def]
  split
  · rename_i heq
    rw [List.cons.injEq] at heq
    exact absurd heq.1 hc
  · rename_i heq
    rw [List.cons.injEq] at heq
    rw [← heq.1, ← heq.2]
  · rename_i heq
    exact absurd heq (by simp)

lemma calcScan_no_c : ∀ l : List Char, 'c' ∉ l → calcScan l = l := by
  intro l
  induction l with
  | nil => intro _; rfl
  | cons c t ih =>
    intro h
    rw [List.mem_cons, not_or] at h
    rw [calcScan_step c t (fun he => h.1 he.symm), ih h.2]

lemma urlScanF_nil : ∀ fuel, urlScanF fuel [] = [] := by
  intro fuel
  cases fuel <;> rfl

lemma urlScanF_step (fuel : ℕ) (c : Char) (t : List Char) (hc : c ≠ 'u') :
    urlScanF (fuel + 1) (c :: t) = c :: urlScanF fuel t := by
  rw [urlScanF.eq_def]
  split
  · rename_i heq
    omega
  · rename_i f heq
    have hf : f = fuel := by omega
    subst hf
    split
    · rename_i heq2
      rw [List.cons.injEq] at heq2
      exact absurd heq2.1 hc
    · rename_i heq2
      rw [List.cons.injEq] at heq2
      rw [← heq2.1, ← heq2.2]
    · rename_i heq2
      exact absurd heq2 (by simp)

lemma urlScan_no_u : ∀ (l : List Char) (fuel : ℕ), 'u' ∉ l → urlScanF fuel l = l := by
  intro l
  induction l with
  | nil => intro fuel _; exact urlScanF_nil fuel
  | cons c t ih =>
    intro fuel h
    rw [List.mem_cons, not_or] at h
    cases fuel with
    | zero => rfl
    | succ f => rw [urlScanF_step f c t (fun he => h.1 he.symm), ih f h.2]

lemma fracSplit_not_dot (c : Char) (u : List Char) (hc : c ≠ '.') :
    fracSplit (c :: u) = ([], c :: u) := by
  rw [fracSplit.eq_def]
  split
  · rename_i heq
    rw [List.cons.injEq] at heq
    exact absurd heq.1 hc
  · rfl

lemma fracSplit_dot (u : List Char) (h : (u.takeWhile isDigitCh).isEmpty = false) :
    fracSplit ('.' :: u) = (u.takeWhile isDigitCh, u.dropWhile isDigitCh) := by
  simp [fracSplit, h]

lemma sScanF_nil : ∀ fuel, sScanF fuel [] = [] := by
  intro fuel
  cases fuel <;> rfl

lemma sScanF_step_nondigit (fuel : ℕ) (c : Char) (t : List Char)
    (hc : isDigitCh c = false) :
    sScanF (fuel + 1) (c :: t) = c :: sScanF fuel t := by
  simp [sScanF, hc]

lemma sScanF_step_match (fuel : ℕ) (c : Char) (t fs rest : List Char)
    (hc : isDigitCh c = true)
    (hfrac : fracSplit (t.dropWhile isDigitCh) = (fs, 's' :: rest))
    (hhead : rest.head?.all (fun d => !isWordCh d) = true) :
    sScanF (fuel + 1) (c :: t) =
      numRender (1000 * mantissaOf (c :: t.takeWhile isDigitCh) fs) fs.length
        ++ sScanF fuel rest := by
  simp [sScanF, hc, hfrac, hhead]

lemma sScanF_step_nomatch (fuel : ℕ) (c : Char) (t : List Char)
    (hc : isDigitCh c = true)
    (hns : ∀ r3, (fracSplit (t.dropWhile isDigitCh)).2 ≠ 's' :: r3) :
    sScanF (fuel + 1) (c :: t) = c :: sScanF fuel t := by
  simp only [sScanF, hc, if_true]

lemma msScanF_nil : ∀ fuel, msScanF fuel [] = [] := by
  intro fuel
  cases fuel <;> rfl

lemma msScanF_step_nondigit (fuel : ℕ) (c : Char) (t : List Char)
    (hc : isDigitCh c = false) :
    msScanF (fuel + 1) (c :: t) = c :: msScanF fuel t := by
  simp [msScanF, hc]

lemma msScanF_step_match (fuel : ℕ) (c : Char) (t fs rest : List Char)
    (hc : isDigitCh c = true)
    (hfrac : fracSplit (t.dropWhile isDigitCh) = (fs, 'm' :: 's' :: rest))
    (hhead : rest.head?.all (fun d => !isWordCh d) = true) :
    msScanF (fuel + 1) (c :: t) =
      numRender (mantissaOf (c :: t.takeWhile isDigitCh) fs) fs.length
        ++ msScanF fuel rest := by
  simp [msScanF, hc, hfrac, hhead]

lemma msScanF_step_nomatch (fuel : ℕ) (c : Char) (t : List Char)
    (hc : isDigitCh c = true)
    (hns : ∀ r3, (fracSplit (t.dropWhile isDigitCh)).2 ≠ 'm' :: 's' :: r3) :
    msScanF (fuel + 1) (c :: t) = c :: msScanF fuel t := by
  simp only [msScanF, hc, if_true]

lemma tokenizeF_nil : ∀ fuel, tokenizeF (fuel + 1) [] = Except.ok [] := by
  intro fuel
  rfl

lemma tokenizeF_lparen (fuel : ℕ) (t : List Char) :
    tokenizeF (fuel + 1) ('(' :: t) = (tokenizeF fuel t).map (Tok.lparen :: ·) := rfl

lemma tokenizeF_rparen (fuel : ℕ) (t : List Char) :
    tokenizeF (fuel + 1) (')' :: t) = (tokenizeF fuel t).map (Tok.rparen :: ·) := rfl

lemma tokenizeF_digit (fuel : ℕ) (c : Char) (t : List Char)
    (hc : isDigitCh c = true) :
    tokenizeF (fuel + 1) (c :: t) =
      (tokenizeF fuel (fracSplit (t.dropWhile isDigitCh)).2).map
        (Tok.num (decimalVal (c :: t.takeWhile isDigitCh)
          (fracSplit (t.dropWhile isDigitCh)).1) :: ·) := by
  have hsp : isSpaceCh c = false := digit_not_space hc
  simp [tokenizeF, hc, hsp]

lemma extractRefsF_step (fuel : ℕ) (c : Char) (t : List Char) (hc : c ≠ '#') :
    extractRefsF (fuel + 1) (c :: t) = extractRefsF fuel t := by
  rw [extractRefsF.eq_def]
  split
  · rename_i heq
    omega
  · rename_i f heq
    have hf : f = fuel := by omega
    subst hf
    split
    · rename_i heq2
      rw [List.cons.injEq] at heq2
      exact absurd heq2.1 hc
    · rename_i heq2
      rw [List.cons.injEq] at heq2
      rw [← heq2.2]
    · rename_i heq2
      exact absurd heq2 (by simp)

lemma extractRefs_no_hash : ∀ (l : List Char) (fuel : ℕ), '#' ∉ l → extractRefsF fuel l = [] := by
  intro l
  induction l with
  | nil => intro fuel _; cases fuel <;> rfl
  | cons c t ih =>
    intro fuel h
    rw [List.mem_cons, not_or] at h
    cases fuel with
    | zero => rfl
    | succ f =>
      rw [extractRefsF_step f c t (fun he => h.1 he.symm)]
      exact ih f h.2

lemma char_ofNat_toNat (d : ℕ) (h : d < 10) :
    (Char.ofNat (48 + d)).toNat = 48 + d := by
  unfold Char.ofNat
  rw [dif_pos (by constructor; omega)]
  rfl

lemma digitVal_ofNat (d : ℕ) (h : d < 10) :
    digitVal (Char.ofNat (48 + d)) = d := by
  rw [digitVal, char_ofNat_toNat d h]
  omega

lemma isDigitCh_ofNat (d : ℕ) (h : d < 10) :
    isDigitCh (Char.ofNat (48 + d)) = true := by
  simp only [isDigitCh, char_ofNat_toNat d h, Bool.and_eq_true, decide_eq_true_eq]
  omega

lemma digitsVal_foldl (ys : List Char) :
    ∀ a : ℕ, ys.foldl (fun a c => 10 * a + digitVal c) a
      = a * 10 ^ ys.length + digitsVal ys := by
  induction ys with
  | nil => intro a; simp [digitsVal]
  | cons y ys ih =>
    intro a
    have h0 : digitsVal (y :: ys) = digitVal y * 10 ^ ys.length + digitsVal ys := by
      show List.foldl (fun a c => 10 * a + digitVal c) (10 * 0 + digitVal y) ys = _
      rw [show 10 * 0 + digitVal y = digitVal y by omega, ih (digitVal y)]
    show List.foldl (fun a c => 10 * a + digitVal c) (10 * a + digitVal y) ys = _
    rw [ih (10 * a + digitVal y), h0, List.length_cons]
    ring

lemma digitsVal_append (xs ys : List Char) :
    digitsVal (xs ++ ys) = digitsVal xs * 10 ^ ys.length + digitsVal ys := by
  show List.foldl _ 0 (xs ++ ys) = _
  rw [List.foldl_append]
  exact digitsVal_foldl ys _

lemma digitsVal_replicate_zero (z : ℕ) :
    digitsVal (List.replicate z '0') = 0 := by
  induction z with
  | zero => rfl
  | succ z ih =>
    rw [List.replicate_succ]
    show List.foldl (fun a c => 10 * a + digitVal c) (10 * 0 + digitVal '0') _ = 0
    have h0 : (10 * 0 + digitVal '0') = 0 := by decide
    rw [h0]
    exact ih

lemma foldr_ofDigits (l : List ℕ) :
    l.foldr (fun d a => 10 * a + d) 0 = Nat.ofDigits 10 l := by
  induction l with
  | nil => simp [Nat.ofDigits_nil]
  | cons d ds ih =>
    rw [List.foldr_cons, ih]
    rw [Nat.ofDigits_cons]
    omega

lemma digitsVal_map_chars (lr : List ℕ) (hl : ∀ d ∈ lr, d < 10) :
    ∀ a : ℕ, List.foldl (fun a d => 10 * a + digitVal (Char.ofNat (48 + d))) a lr
      = List.foldl (fun a d => 10 * a + d) a lr := by
  induction lr with
  | nil => intro a; rfl
  | cons d ds ih =>
    intro a
    have hd : d < 10 := hl d (by simp)
    rw [List.foldl_cons, List.foldl_cons, digitVal_ofNat d hd]
    exact ih (fun x hx => hl x (by simp [hx])) _

lemma digitsVal_natChars (n : ℕ) : digitsVal (natChars n) = n := by
  by_cases hn : n = 0
  · subst hn; decide
  · rw [natChars, if_neg hn]
    show List.foldl (fun a c => 10 * a + digitVal c) 0 _ = n
    rw [List.foldl_map]
    rw [digitsVal_map_chars ((Nat.digits 10 n).reverse)
      (fun d hd => Nat.digits_lt_base (by norm_num) (List.mem_reverse.mp hd)) 0]
    rw [List.foldl_reverse, foldr_ofDigits, Nat.ofDigits_digits]

lemma natChars_digits (n : ℕ) : ∀ c ∈ natChars n, isDigitCh c = true := by
  intro c hc
  rw [natChars] at hc
  by_cases hn : n = 0
  · rw [if_pos hn] at hc
    simp at hc
    subst hc
    decide
  · rw [if_neg hn, List.mem_map] at hc
    obtain ⟨d, hd, hde⟩ := hc
    have hd10 : d < 10 := Nat.digits_lt_base (by norm_num) (List.mem_reverse.mp hd)
    rw [← hde]
    exact isDigitCh_ofNat d hd10

lemma natChars_ne_nil (n : ℕ) : natChars n ≠ [] := by
  rw [natChars]
  by_cases hn : n = 0
  · simp [hn]
  · rw [if_neg hn]
    simp only [ne_eq, List.map_eq_nil_iff, List.reverse_eq_nil_iff]
    exact Nat.digits_ne_nil_iff_ne_zero.mpr hn

lemma padChars_base_eq (fp : ℕ) (h : fp ≠ 0) :
    ((Nat.digits 10 fp).reverse).map (fun d => Char.ofNat (48 + d)) = natChars fp := by
  rw [natChars, if_neg h]

lemma padChars_digitsVal (k fp : ℕ) : digitsVal (padChars k fp) = fp := by
  rw [padChars]
  by_cases hfp : fp = 0
  · subst hfp
    simp only [if_pos rfl]
    simpa using digitsVal_replicate_zero _
  · simp only [if_neg hfp]
    rw [digitsVal_append, digitsVal_replicate_zero, padChars_base_eq fp hfp,
      digitsVal_natChars]
    ring

lemma padChars_length (k fp : ℕ) (h : fp < 10 ^ k) : (padChars k fp).length = k := by
  rw [padChars]
  by_cases hfp : fp = 0
  · subst hfp
    simp
  · simp only [if_neg hfp, List.length_append, List.length_replicate,
      List.length_map, List.length_reverse]
    have hlen : (Nat.digits 10 fp).length ≤ k := by
      rw [Nat.digits_len 10 fp (by norm_num) hfp]
      have hlog : Nat.log 10 fp < k := Nat.log_lt_of_lt_pow hfp h
      omega
    omega

lemma padChars_digits (k fp : ℕ) : ∀ c ∈ padChars k fp, isDigitCh c = true := by
  intro c hc
  rw [padChars] at hc
  by_cases hfp : fp = 0
  · simp only [if_pos hfp] at hc
    have := List.eq_of_mem_replicate (by simpa using hc)
    subst this
    decide
  · simp only [if_neg hfp, List.mem_append] at hc
    rcases hc with hc | hc
    · have := List.eq_of_mem_replicate hc
      subst this
      decide
    · rw [padChars_base_eq fp hfp] at hc
      exact natChars_digits fp c hc

lemma numRender_eq (M k : ℕ) :
    numRender M k = natChars (M / 10 ^ k) ++
      (if M % 10 ^ k = 0 then [] else '.' :: padChars k (M % 10 ^ k)) := rfl

lemma decimalVal_render (M k : ℕ) :
    decimalVal (natChars (M / 10 ^ k))
      (if M % 10 ^ k = 0 then [] else padChars k (M % 10 ^ k))
      = (M : ℚ) / 10 ^ k := by
  have hM := Nat.div_add_mod M (10 ^ k)
  have hcast : ((10 : ℚ) ^ k) * ((M / 10 ^ k : ℕ) : ℚ) + ((M % 10 ^ k : ℕ) : ℚ)
      = (M : ℚ) := by
    exact_mod_cast congrArg (fun n : ℕ => (n : ℚ)) hM
  by_cases h : M % 10 ^ k = 0
  · rw [if_pos h, decimalVal, digitsVal_natChars]
    have : digitsVal ([] : List Char) = 0 := rfl
    rw [this]
    rw [h] at hcast
    push_cast at hcast
    have h10 : ((10 : ℚ) ^ k) ≠ 0 := by positivity
    field_simp
    linarith [hcast]
  · rw [if_neg h, decimalVal, digitsVal_natChars, padChars_digitsVal,
      padChars_length k _ (Nat.mod_lt _ (by positivity))]
    have h10 : ((10 : ℚ) ^ k) ≠ 0 := by positivity
    field_simp
    linarith [hcast]

lemma tokenizeF_nil_pos (fuel : ℕ) (h : 1 ≤ fuel) : tokenizeF fuel [] = Except.ok [] := by
  obtain ⟨f, rfl⟩ : ∃ f, fuel = f + 1 := ⟨fuel - 1, by omega⟩
  rfl

lemma tokenizeF_body (M k : ℕ) (fuel : ℕ) (hf : 3 ≤ fuel) :
    tokenizeF fuel (numRender M k ++ [')']) =
      Except.ok [Tok.num ((M : ℚ) / 10 ^ k), Tok.rparen] := by
  obtain ⟨f, rfl⟩ : ∃ f, fuel = (f + 1) + 1 := ⟨fuel - 2, by omega⟩
  obtain ⟨d0, ds', hds⟩ := List.exists_cons_of_ne_nil (natChars_ne_nil (M / 10 ^ k))
  have hd0 : isDigitCh d0 = true := natChars_digits _ d0 (by rw [hds]; simp)
  have hds' : ∀ c ∈ ds', isDigitCh c = true := fun c hc =>
    natChars_digits _ c (by rw [hds]; simp [hc])
  rw [numRender_eq, hds]
  by_cases hfp : M % 10 ^ k = 0
  · rw [if_pos hfp]
    simp only [List.cons_append, List.append_assoc, List.append_nil, List.nil_append]
    rw [tokenizeF_digit (f + 1) d0 (ds' ++ [')']) hd0]
    have hsplit := @takeWhile_append_of Char isDigitCh ds' [')']
      hds' (fun c hc => by simp at hc; subst hc; decide)
    rw [hsplit.1, hsplit.2]
    have hfrac1 : (fracSplit [')']).1 = [] := rfl
    have hfrac2 : (fracSplit [')']).2 = [')'] := rfl
    rw [hfrac1, hfrac2]
    have hval : decimalVal (d0 :: ds') [] = (M : ℚ) / 10 ^ k := by
      rw [← hds]
      have h0 := decimalVal_render M k
      rwa [if_pos hfp] at h0
    rw [tokenizeF_rparen f [], tokenizeF_nil_pos f (by omega), hval]
    rfl
  · rw [if_neg hfp]
    simp only [List.cons_append, List.append_assoc, List.append_nil, List.nil_append]
    rw [tokenizeF_digit (f + 1) d0 _ hd0]
    have hsplit := @takeWhile_append_of Char isDigitCh ds'
      ('.' :: (padChars k (M % 10 ^ k) ++ [')']))
      hds' (fun c hc => by simp at hc; subst hc; decide)
    rw [hsplit.1, hsplit.2]
    have hpdig : ∀ c ∈ padChars k (M % 10 ^ k), isDigitCh c = true :=
      padChars_digits _ _
    have hsplit2 := @takeWhile_append_of Char isDigitCh
      (padChars k (M % 10 ^ k)) [')']
      hpdig (fun c hc => by simp at hc; subst hc; decide)
    have hk1 : 1 ≤ k := by
      by_contra hk
      push_neg at hk
      have hk0 : k = 0 := by omega
      subst hk0
      exact hfp (Nat.mod_one M)
    have hplen : (padChars k (M % 10 ^ k)).length = k :=
      padChars_length k _ (Nat.mod_lt _ (by positivity))
    have hpadne : padChars k (M % 10 ^ k) ≠ [] := by
      intro h
      rw [h] at hplen
      simp at hplen
      omega
    have hune : (((padChars k (M % 10 ^ k) ++ [')']).takeWhile isDigitCh)).isEmpty = false := by
      rw [hsplit2.1]
      obtain ⟨p0, ps, hp⟩ := List.exists_cons_of_ne_nil hpadne
      rw [hp]
      rfl
    have hfrac : fracSplit ('.' :: (padChars k (M % 10 ^ k) ++ [')'])) =
        (padChars k (M % 10 ^ k), [')']) := by
      rw [fracSplit_dot _ hune, hsplit2.1, hsplit2.2]
    have hfrac1 : (fracSplit ('.' :: (padChars k (M % 10 ^ k) ++ [')']))).1
        = padChars k (M % 10 ^ k) := by rw [hfrac]
    have hfrac2 : (fracSplit ('.' :: (padChars k (M % 10 ^ k) ++ [')']))).2
        = [')'] := by rw [hfrac]
    rw [hfrac1, hfrac2]
    have hval : decimalVal (d0 :: ds') (padChars k (M % 10 ^ k)) = (M : ℚ) / 10 ^ k := by
      rw [← hds]
      have h0 := decimalVal_render M k
      rwa [if_neg hfp] at h0
    rw [tokenizeF_rparen f [], tokenizeF_nil_pos f (by omega), hval]
    rfl

lemma tokenize_paren_numRender (M k : ℕ) :
    tokenize ('(' :: (numRender M k ++ [')'])) =
      Except.ok [Tok.lparen, Tok.num ((M : ℚ) / 10 ^ k), Tok.rparen] := by
  show tokenizeF (('(' :: (numRender M k ++ [')'])).length + 1) _ = _
  have hlen : ('(' :: (numRender M k ++ [')'])).length + 1
      = ((numRender M k).length + 2) + 1 := by
    simp only [List.length_cons, List.length_append, List.length_nil]
  rw [hlen, tokenizeF_lparen ((numRender M k).length + 2) _]
  have hn1 : 1 ≤ (numRender M k).length := by
    rw [numRender_eq]
    obtain ⟨d0, ds', hds⟩ := List.exists_cons_of_ne_nil (natChars_ne_nil (M / 10 ^ k))
    rw [hds]
    simp
  rw [tokenizeF_body M k _ (by omega)]
  rfl

lemma exprParse_paren_numRender (M k : ℕ) :
    exprParse (String.mk ('(' :: (numRender M k ++ [')']))) =
      Except.ok (AExpr.num ((M : ℚ) / 10 ^ k)) := by
  have htoks : (String.mk ('(' :: (numRender M k ++ [')']))).toList
      = '(' :: (numRender M k ++ [')']) := rfl
  simp only [exprParse, htoks, tokenize_paren_numRender M k]
  rfl

lemma evaluate_num (orig : String) (q : ℚ) (ctx : ExprContext)
    (hhash : '#' ∉ orig.toList) :
    evaluateCompiledExpression ⟨orig, AExpr.num q⟩ ctx =
      Except.ok (JSNum.finite q) := by
  have hrefs : extractRefs orig.toList = [] :=
    extractRefs_no_hash orig.toList orig.toList.length hhash
  have hrefs2 : extractRefs orig.data = [] := hrefs
  simp [evaluateCompiledExpression, hrefs, hrefs2, evalAExpr, pure, Except.pure]

lemma mem_of_mem_dropWhile {p : Char → Bool} {l : List Char} {c : Char}
    (h : c ∈ l.dropWhile p) : c ∈ l := by
  induction l with
  | nil => simpa using h
  | cons x t ih =>
    rw [List.dropWhile_cons] at h
    by_cases hx : p x = true
    · rw [if_pos hx] at h
      exact List.mem_cons_of_mem x (ih h)
    · rw [if_neg hx] at h
      exact h

lemma fracSplit_snd_mem (x : List Char) : ∀ c ∈ (fracSplit x).2, c ∈ x := by
  intro c hc
  rw [fracSplit.eq_def] at hc
  split at hc
  · rename_i u
    split at hc
    · exact hc
    · exact List.mem_cons_of_mem '.' (mem_of_mem_dropWhile hc)
  · exact hc

lemma sScanF_no_digit : ∀ (l : List Char) (fuel : ℕ),
    (∀ c ∈ l, isDigitCh c = false) → sScanF fuel l = l := by
  intro l
  induction l with
  | nil => intro fuel _; exact sScanF_nil fuel
  | cons c t ih =>
    intro fuel h
    cases fuel with
    | zero => rfl
    | succ f =>
      rw [sScanF_step_nondigit f c t (h c (by simp)),
        ih f (fun x hx => h x (by simp [hx]))]

lemma msScan_no_m : ∀ (l : List Char) (fuel : ℕ), 'm' ∉ l → msScanF fuel l = l := by
  intro l
  induction l with
  | nil => intro fuel _; exact msScanF_nil fuel
  | cons c t ih =>
    intro fuel h
    rw [List.mem_cons, not_or] at h
    cases fuel with
    | zero => rfl
    | succ f =>
      by_cases hc : isDigitCh c = true
      · have hns : ∀ r3, (fracSplit (t.dropWhile isDigitCh)).2 ≠ 'm' :: 's' :: r3 := by
          intro r3 heq
          have hm : 'm' ∈ (fracSplit (t.dropWhile isDigitCh)).2 := by
            rw [heq]
            simp
          have h2 := fracSplit_snd_mem _ 'm' hm
          exact h.2 (mem_of_mem_dropWhile h2)
        rw [msScanF_step_nomatch f c t hc hns, ih f h.2]
      · rw [msScanF_step_nondigit f c t (by simpa using hc), ih f h.2]

lemma sScanF_frun_ms (fs : List Char) (hf : ∀ c ∈ fs, isDigitCh c = true) :
    ∀ fuel, sScanF fuel (fs ++ ['m', 's', ')']) = fs ++ ['m', 's', ')'] := by
  induction fs with
  | nil =>
    intro fuel
    exact sScanF_no_digit ['m', 's', ')'] fuel (by decide)
  | cons f0 fs' ih =>
    intro fuel
    cases fuel with
    | zero => rfl
    | succ f =>
      rw [List.cons_append]
      have hdw : (fs' ++ ['m', 's', ')']).dropWhile isDigitCh = ['m', 's', ')'] :=
        (takeWhile_append_of (fun c hc => hf c (by simp [hc]))
          (fun c hc => by simp at hc; subst hc; decide)).2
      have hns : ∀ r3, (fracSplit ((fs' ++ ['m', 's', ')']).dropWhile isDigitCh)).2 ≠ 's' :: r3 := by
        rw [hdw]
        intro r3 heq
        simp [fracSplit] at heq
      rw [sScanF_step_nomatch f f0 (fs' ++ ['m', 's', ')']) (hf f0 (by simp)) hns,
        ih (fun c hc => hf c (by simp [hc])) f]

lemma sScanF_ds_ms (ds fs : List Char) (hd : ∀ c ∈ ds, isDigitCh c = true)
    (hf : ∀ c ∈ fs, isDigitCh c = true) :
    ∀ fuel, sScanF fuel (ds ++ (if fs = [] then [] else '.' :: fs) ++ ['m', 's', ')'])
      = ds ++ (if fs = [] then [] else '.' :: fs) ++ ['m', 's', ')'] := by
  induction ds with
  | nil =>
    intro fuel
    by_cases hfs : fs = []
    · rw [if_pos hfs]
      simpa using sScanF_no_digit ['m', 's', ')'] fuel (by decide)
    · rw [if_neg hfs]
      simp only [List.nil_append, List.cons_append]
      cases fuel with
      | zero => rfl
      | succ f =>
        rw [sScanF_step_nondigit f '.' (fs ++ ['m', 's', ')']) (by decide),
          sScanF_frun_ms fs hf f]
  | cons d0 ds' ih =>
    intro fuel
    cases fuel with
    | zero => rfl
    | succ f =>
      simp only [List.cons_append, List.append_assoc]
      have htail : ∀ c, ((if fs = [] then [] else '.' :: fs) ++ ['m', 's', ')']).head? = some c →
          isDigitCh c = false := by
        intro c hc
        by_cases hfs : fs = []
        · rw [if_pos hfs] at hc
          simp at hc
          subst hc
          decide
        · rw [if_neg hfs] at hc
          simp at hc
          subst hc
          decide
      have hsplit := @takeWhile_append_of Char isDigitCh ds'
        ((if fs = [] then [] else '.' :: fs) ++ ['m', 's', ')'])
        (fun c hc => hd c (by simp [hc])) htail
      have hns : ∀ r3,
          (fracSplit ((ds' ++ ((if fs = [] then [] else '.' :: fs) ++ ['m', 's', ')'])).dropWhile isDigitCh)).2
            ≠ 's' :: r3 := by
        rw [hsplit.2]
        by_cases hfs : fs = []
        · rw [if_pos hfs]
          intro r3 heq
          simp [fracSplit] at heq
        · rw [if_neg hfs]
          simp only [List.cons_append]
          obtain ⟨g0, gs, hg⟩ := List.exists_cons_of_ne_nil hfs
          have htk : (fs ++ ['m', 's', ')']).takeWhile isDigitCh = fs :=
            (takeWhile_append_of (fun c hc => hf c (by simp [hc]))
              (fun c hc => by simp at hc; subst hc; decide)).1
          have hdw : (fs ++ ['m', 's', ')']).dropWhile isDigitCh = ['m', 's', ')'] :=
            (takeWhile_append_of (fun c hc => hf c (by simp [hc]))
              (fun c hc => by simp at hc; subst hc; decide)).2
          have hne : ((fs ++ ['m', 's', ')']).takeWhile isDigitCh).isEmpty = false := by
            rw [htk, hg]
            rfl
          rw [fracSplit_dot _ hne, hdw]
          intro r3 heq
          simp at heq
      rw [sScanF_step_nomatch f d0 _ (hd d0 (by simp)) hns]
      have hih := ih (fun c hc => hd c (by simp [hc])) f
      simp only [List.cons_append, List.append_assoc] at hih ⊢
      rw [hih]

lemma fsList_head_not_digit (fs : List Char) (hf : ∀ c ∈ fs, isDigitCh c = true)
    (tail : List Char) (htail : ∀ c, tail.head? = some c → isDigitCh c = false) :
    ∀ c, ((if fs = [] then [] else '.' :: fs) ++ tail).head? = some c →
      isDigitCh c = false := by
  intro c hc
  by_cases hfs : fs = []
  · rw [if_pos hfs, List.nil_append] at hc
    exact htail c hc
  · rw [if_neg hfs, List.cons_append] at hc
    simp at hc
    subst hc
    decide

lemma fracSplit_fsList_s (fs : List Char) (hf : ∀ c ∈ fs, isDigitCh c = true) :
    fracSplit ((if fs = [] then [] else '.' :: fs) ++ ['s', ')'])
      = (fs, ['s', ')']) := by
  by_cases hfs : fs = []
  · rw [if_pos hfs, List.nil_append, hfs]
    rfl
  · rw [if_neg hfs, List.cons_append]
    have htk : (fs ++ ['s', ')']).takeWhile isDigitCh = fs :=
      (takeWhile_append_of (fun c hc => hf c hc)
        (fun c hc => by simp at hc; subst hc; decide)).1
    have hdw : (fs ++ ['s', ')']).dropWhile isDigitCh = ['s', ')'] :=
      (takeWhile_append_of (fun c hc => hf c hc)
        (fun c hc => by simp at hc; subst hc; decide)).2
    have hne : ((fs ++ ['s', ')']).takeWhile isDigitCh).isEmpty = false := by
      rw [htk]
      obtain ⟨g0, gs, hg⟩ := List.exists_cons_of_ne_nil hfs
      rw [hg]
      rfl
    rw [fracSplit_dot _ hne, htk, hdw]

lemma fracSplit_fsList_ms (fs : List Char) (hf : ∀ c ∈ fs, isDigitCh c = true) :
    fracSplit ((if fs = [] then [] else '.' :: fs) ++ ['m', 's', ')'])
      = (fs, ['m', 's', ')']) := by
  by_cases hfs : fs = []
  · rw [if_pos hfs, List.nil_append, hfs]
    rfl
  · rw [if_neg hfs, List.cons_append]
    have htk : (fs ++ ['m', 's', ')']).takeWhile isDigitCh = fs :=
      (takeWhile_append_of (fun c hc => hf c hc)
        (fun c hc => by simp at hc; subst hc; decide)).1
    have hdw : (fs ++ ['m', 's', ')']).dropWhile isDigitCh = ['m', 's', ')'] :=
      (takeWhile_append_of (fun c hc => hf c hc)
        (fun c hc => by simp at hc; subst hc; decide)).2
    have hne : ((fs ++ ['m', 's', ')']).takeWhile isDigitCh).isEmpty = false := by
      rw [htk]
      obtain ⟨g0, gs, hg⟩ := List.exists_cons_of_ne_nil hfs
      rw [hg]
      rfl
    rw [fracSplit_dot _ hne, htk, hdw]

lemma sScanF_s_main (ds fs : List Char) (hds : ds ≠ [])
    (hd : ∀ c ∈ ds, isDigitCh c = true) (hf : ∀ c ∈ fs, isDigitCh c = true)
    (fuel : ℕ) (hfuel : 1 ≤ fuel) :
    sScanF fuel (ds ++ (if fs = [] then [] else '.' :: fs) ++ ['s', ')'])
      = numRender (1000 * digitsVal (ds ++ fs)) fs.length ++ [')'] := by
  obtain ⟨f, rfl⟩ : ∃ f, fuel = f + 1 := ⟨fuel - 1, by omega⟩
  obtain ⟨d0, ds', hds0⟩ := List.exists_cons_of_ne_nil hds
  subst hds0
  simp only [List.cons_append, List.append_assoc]
  have htail : ∀ c, (['s', ')'] : List Char).head? = some c → isDigitCh c = false := by
    intro c hc
    simp at hc
    subst hc
    decide
  have hsplit := @takeWhile_append_of Char isDigitCh ds'
    ((if fs = [] then [] else '.' :: fs) ++ ['s', ')'])
    (fun c hc => hd c (by simp [hc]))
    (fsList_head_not_digit fs hf ['s', ')'] htail)
  have hfrac : fracSplit ((ds' ++ ((if fs = [] then [] else '.' :: fs) ++ ['s', ')'])).dropWhile isDigitCh)
      = (fs, 's' :: [')']) := by
    rw [hsplit.2]
    exact fracSplit_fsList_s fs hf
  rw [sScanF_step_match f d0 _ fs [')'] (hd d0 (by simp)) hfrac (by decide)]
  rw [hsplit.1]
  rw [sScanF_no_digit [')'] f (by decide)]
  have hm : mantissaOf (d0 :: ds') fs = digitsVal ((d0 :: ds') ++ fs) := rfl
  rw [hm]
  simp only [List.cons_append]

lemma msScanF_ms_main (ds fs : List Char) (hds : ds ≠ [])
    (hd : ∀ c ∈ ds, isDigitCh c = true) (hf : ∀ c ∈ fs, isDigitCh c = true)
    (fuel : ℕ) (hfuel : 1 ≤ fuel) :
    msScanF fuel (ds ++ (if fs = [] then [] else '.' :: fs) ++ ['m', 's', ')'])
      = numRender (digitsVal (ds ++ fs)) fs.length ++ [')'] := by
  obtain ⟨f, rfl⟩ : ∃ f, fuel = f + 1 := ⟨fuel - 1, by omega⟩
  obtain ⟨d0, ds', hds0⟩ := List.exists_cons_of_ne_nil hds
  subst hds0
  simp only [List.cons_append, List.append_assoc]
  have htail : ∀ c, (['m', 's', ')'] : List Char).head? = some c → isDigitCh c = false := by
    intro c hc
    simp at hc
    subst hc
    decide
  have hsplit := @takeWhile_append_of Char isDigitCh ds'
    ((if fs = [] then [] else '.' :: fs) ++ ['m', 's', ')'])
    (fun c hc => hd c (by simp [hc]))
    (fsList_head_not_digit fs hf ['m', 's', ')'] htail)
  have hfrac : fracSplit ((ds' ++ ((if fs = [] then [] else '.' :: fs) ++ ['m', 's', ')'])).dropWhile isDigitCh)
      = (fs, 'm' :: 's' :: [')']) := by
    rw [hsplit.2]
    exact fracSplit_fsList_ms fs hf
  rw [msScanF_step_match f d0 _ fs [')'] (hd d0 (by simp)) hfrac (by decide)]
  rw [hsplit.1]
  rw [msScan_no_m [')'] f (by decide)]
  have hm : mantissaOf (d0 :: ds') fs = digitsVal ((d0 :: ds') ++ fs) := rfl
  rw [hm]
  simp only [List.cons_append]

lemma digit_notin (x : Char) (hx : isDigitCh x = false) (ds fs : List Char)
    (hd : ∀ c ∈ ds, isDigitCh c = true) (hf : ∀ c ∈ fs, isDigitCh c = true)
    (tail : List Char) (hxt : x ∉ tail) (hxd : x ≠ '.') :
    x ∉ ds ++ (if fs = [] then [] else '.' :: fs) ++ tail := by
  intro hmem
  simp only [List.mem_append] at hmem
  rcases hmem with (h | h) | h
  · rw [hd x h] at hx
    simp at hx
  · by_cases hfs : fs = []
    · rw [if_pos hfs] at h
      simp at h
    · rw [if_neg hfs] at h
      rcases List.mem_cons.mp h with h | h
      · exact hxd h
      · rw [hf x h] at hx
        simp at hx
  · exact hxt h

lemma numRender_chars (M k : ℕ) :
    ∀ c ∈ numRender M k, isDigitCh c = true ∨ c = '.' := by
  intro c hc
  rw [numRender_eq] at hc
  simp only [List.mem_append] at hc
  rcases hc with hc | hc
  · exact Or.inl (natChars_digits _ c hc)
  · by_cases h : M % 10 ^ k = 0
    · rw [if_pos h] at hc
      simp at hc
    · rw [if_neg h] at hc
      rcases List.mem_cons.mp hc with hc | hc
      · exact Or.inr hc
      · exact Or.inl (padChars_digits _ _ c hc)

lemma notin_render (x : Char) (hx : 57 < x.toNat) (hxd : x ≠ '.') (hxp : x ≠ ')')
    (M k : ℕ) : x ∉ '(' :: (numRender M k ++ [')']) := by
  intro hmem
  rcases List.mem_cons.mp hmem with h | h
  · subst h
    exact absurd hx (by decide)
  · rcases List.mem_append.mp h with h | h
    · rcases numRender_chars M k x h with h2 | h2
      · have := digit_bounds h2
        omega
      · exact hxd h2
    · simp at h
      exact hxp h

lemma transform_s (ds fs : List Char) (hds : ds ≠ [])
    (hd : ∀ c ∈ ds, isDigitCh c = true) (hf : ∀ c ∈ fs, isDigitCh c = true) :
    transformExpressionToVariables (String.mk
      ('c' :: 'a' :: 'l' :: 'c' :: '(' ::
        (ds ++ (if fs = [] then [] else '.' :: fs) ++ ['s', ')'])))
      = String.mk ('(' :: (numRender (1000 * digitsVal (ds ++ fs)) fs.length ++ [')'])) := by
  have hbody2 : 2 ≤ (ds ++ (if fs = [] then [] else '.' :: fs) ++ ['s', ')']).length := by
    simp only [List.length_append]
    simp
  rw [transformExpressionToVariables]
  have htl : (String.mk ('c' :: 'a' :: 'l' :: 'c' :: '(' ::
      (ds ++ (if fs = [] then [] else '.' :: fs) ++ ['s', ')']))).toList
      = 'c' :: 'a' :: 'l' :: 'c' :: '(' ::
        (ds ++ (if fs = [] then [] else '.' :: fs) ++ ['s', ')']) := rfl
  rw [htl]
  have hcalc : calcScan ('c' :: 'a' :: 'l' :: 'c' :: '(' ::
      (ds ++ (if fs = [] then [] else '.' :: fs) ++ ['s', ')']))
      = '(' :: calcScan (ds ++ (if fs = [] then [] else '.' :: fs) ++ ['s', ')']) := rfl
  rw [hcalc,
    calcScan_no_c _ (digit_notin 'c' (by decide) ds fs hd hf ['s', ')'] (by decide) (by decide))]
  have hnou : 'u' ∉ '(' :: (ds ++ (if fs = [] then [] else '.' :: fs) ++ ['s', ')']) := by
    rw [List.mem_cons, not_or]
    exact ⟨by decide, digit_notin 'u' (by decide) ds fs hd hf ['s', ')'] (by decide) (by decide)⟩
  rw [show urlScan ('(' :: (ds ++ (if fs = [] then [] else '.' :: fs) ++ ['s', ')']))
      = '(' :: (ds ++ (if fs = [] then [] else '.' :: fs) ++ ['s', ')']) from
    urlScan_no_u _ _ hnou]
  rw [show sScan ('(' :: (ds ++ (if fs = [] then [] else '.' :: fs) ++ ['s', ')']))
      = sScanF ((ds ++ (if fs = [] then [] else '.' :: fs) ++ ['s', ')']).length + 1)
        ('(' :: (ds ++ (if fs = [] then [] else '.' :: fs) ++ ['s', ')'])) from rfl]
  rw [sScanF_step_nondigit _ '(' _ (by decide)]
  rw [sScanF_s_main ds fs hds hd hf _ (by omega)]
  have hnom : 'm' ∉ '(' :: (numRender (1000 * digitsVal (ds ++ fs)) fs.length ++ [')']) :=
    notin_render 'm' (by decide) (by decide) (by decide) _ _
  rw [show msScan ('(' :: (numRender (1000 * digitsVal (ds ++ fs)) fs.length ++ [')']))
      = msScanF ('(' :: (numRender (1000 * digitsVal (ds ++ fs)) fs.length ++ [')'])).length
        ('(' :: (numRender (1000 * digitsVal (ds ++ fs)) fs.length ++ [')'])) from rfl]
  rw [msScan_no_m _ _ hnom]

lemma transform_ms (ds fs : List Char) (hds : ds ≠ [])
    (hd : ∀ c ∈ ds, isDigitCh c = true) (hf : ∀ c ∈ fs, isDigitCh c = true) :
    transformExpressionToVariables (String.mk
      ('c' :: 'a' :: 'l' :: 'c' :: '(' ::
        (ds ++ (if fs = [] then [] else '.' :: fs) ++ ['m', 's', ')'])))
      = String.mk ('(' :: (numRender (digitsVal (ds ++ fs)) fs.length ++ [')'])) := by
  have hbody2 : 3 ≤ (ds ++ (if fs = [] then [] else '.' :: fs) ++ ['m', 's', ')']).length := by
    simp only [List.length_append]
    simp
  rw [transformExpressionToVariables]
  have htl : (String.mk ('c' :: 'a' :: 'l' :: 'c' :: '(' ::
      (ds ++ (if fs = [] then [] else '.' :: fs) ++ ['m', 's', ')']))).toList
      = 'c' :: 'a' :: 'l' :: 'c' :: '(' ::
        (ds ++ (if fs = [] then [] else '.' :: fs) ++ ['m', 's', ')']) := rfl
  rw [htl]
  have hcalc : calcScan ('c' :: 'a' :: 'l' :: 'c' :: '(' ::
      (ds ++ (if fs = [] then [] else '.' :: fs) ++ ['m', 's', ')']))
      = '(' :: calcScan (ds ++ (if fs = [] then [] else '.' :: fs) ++ ['m', 's', ')']) := rfl
  rw [hcalc,
    calcScan_no_c _ (digit_notin 'c' (by decide) ds fs hd hf ['m', 's', ')'] (by decide) (by decide))]
  have hnou : 'u' ∉ '(' :: (ds ++ (if fs = [] then [] else '.' :: fs) ++ ['m', 's', ')']) := by
    rw [List.mem_cons, not_or]
    exact ⟨by decide, digit_notin 'u' (by decide) ds fs hd hf ['m', 's', ')'] (by decide) (by decide)⟩
  rw [show urlScan ('(' :: (ds ++ (if fs = [] then [] else '.' :: fs) ++ ['m', 's', ')']))
      = '(' :: (ds ++ (if fs = [] then [] else '.' :: fs) ++ ['m', 's', ')']) from
    urlScan_no_u _ _ hnou]
  rw [show sScan ('(' :: (ds ++ (if fs = [] then [] else '.' :: fs) ++ ['m', 's', ')']))
      = sScanF ((ds ++ (if fs = [] then [] else '.' :: fs) ++ ['m', 's', ')']).length + 1)
        ('(' :: (ds ++ (if fs = [] then [] else '.' :: fs) ++ ['m', 's', ')'])) from rfl]
  rw [sScanF_step_nondigit _ '(' _ (by decide)]
  rw [sScanF_ds_ms ds fs hd hf _]
  rw [show msScan ('(' :: (ds ++ (if fs = [] then [] else '.' :: fs) ++ ['m', 's', ')']))
      = msScanF ((ds ++ (if fs = [] then [] else '.' :: fs) ++ ['m', 's', ')']).length + 1)
        ('(' :: (ds ++ (if fs = [] then [] else '.' :: fs) ++ ['m', 's', ')'])) from rfl]
  rw [msScanF_step_nondigit _ '(' _ (by decide)]
  rw [msScanF_ms_main ds fs hds hd hf _ (by omega)]

lemma value_s (ds fs : List Char) :
    ((1000 * digitsVal (ds ++ fs) : ℕ) : ℚ) / 10 ^ fs.length
      = 1000 * decimalVal ds fs := by
  rw [decimalVal, digitsVal_append]
  push_cast
  have h10 : ((10 : ℚ) ^ fs.length) ≠ 0 := by positivity
  field_simp

lemma value_ms (ds fs : List Char) :
    ((digitsVal (ds ++ fs) : ℕ) : ℚ) / 10 ^ fs.length = decimalVal ds fs := by
  rw [decimalVal, digitsVal_append]
  push_cast
  have h10 : ((10 : ℚ) ^ fs.length) ≠ 0 := by positivity
  field_simp

/-- C3: unit normalization.  For every decimal literal — a non-empty integer
digit run `ds` with an optional fraction digit run `fs`, denoting the
non-negative rational `r = decimalVal ds fs` — parsing and evaluating
`calc(<r>s)` yields exactly `r * 1000`, and parsing and evaluating
`calc(<r>ms)` yields exactly `r`: milliseconds are the canonical unit.
(JavaScript floats are idealised as exact rationals here.) -/
theorem C3_unit_normalization (ds fs : List Char) (hds : ds ≠ [])
    (hd : ∀ c ∈ ds, isDigitCh c = true) (hf : ∀ c ∈ fs, isDigitCh c = true) :
    ((parseExpression (String.mk ('c' :: 'a' :: 'l' :: 'c' :: '(' ::
        (ds ++ (if fs = [] then [] else '.' :: fs) ++ ['s', ')'])))).map
      (fun ce => evaluateCompiledExpression ce (ExprContext.mk []))
      = Except.ok (Except.ok (JSNum.finite (1000 * decimalVal ds fs)))) ∧
    ((parseExpression (String.mk ('c' :: 'a' :: 'l' :: 'c' :: '(' ::
        (ds ++ (if fs = [] then [] else '.' :: fs) ++ ['m', 's', ')'])))).map
      (fun ce => evaluateCompiledExpression ce (ExprContext.mk []))
      = Except.ok (Except.ok (JSNum.finite (decimalVal ds fs)))) := by
  constructor
  · have hhash : '#' ∉ ('c' :: 'a' :: 'l' :: 'c' :: '(' ::
        (ds ++ (if fs = [] then [] else '.' :: fs) ++ ['s', ')'])) := by
      simp only [List.mem_cons, not_or]
      refine ⟨by decide, by decide, by decide, by decide, by decide, ?_⟩
      exact digit_notin '#' (by decide) ds fs hd hf _ (by decide) (by decide)
    simp only [parseExpression, transform_s ds fs hds hd hf,
      exprParse_paren_numRender (1000 * digitsVal (ds ++ fs)) fs.length]
    rw [show Except.map (fun ce => evaluateCompiledExpression ce (ExprContext.mk []))
        (Except.ok (⟨String.mk ('c' :: 'a' :: 'l' :: 'c' :: '(' ::
          (ds ++ (if fs = [] then [] else '.' :: fs) ++ ['s', ')'])),
          AExpr.num (((1000 * digitsVal (ds ++ fs) : ℕ) : ℚ) / 10 ^ fs.length)⟩ :
            CompiledExpression))
        = Except.ok (evaluateCompiledExpression (⟨String.mk ('c' :: 'a' :: 'l' :: 'c' :: '(' ::
          (ds ++ (if fs = [] then [] else '.' :: fs) ++ ['s', ')'])),
          AExpr.num (((1000 * digitsVal (ds ++ fs) : ℕ) : ℚ) / 10 ^ fs.length)⟩ :
            CompiledExpression) (ExprContext.mk [])) from rfl]
    rw [evaluate_num _ _ _ hhash, value_s]
  · have hhash : '#' ∉ ('c' :: 'a' :: 'l' :: 'c' :: '(' ::
        (ds ++ (if fs = [] then [] else '.' :: fs) ++ ['m', 's', ')'])) := by
      simp only [List.mem_cons, not_or]
      refine ⟨by decide, by decide, by decide, by decide, by decide, ?_⟩
      exact digit_notin '#' (by decide) ds fs hd hf _ (by decide) (by decide)
    simp only [parseExpression, transform_ms ds fs hds hd hf,
      exprParse_paren_numRender (digitsVal (ds ++ fs)) fs.length]
    rw [show Except.map (fun ce => evaluateCompiledExpression ce (ExprContext.mk []))
        (Except.ok (⟨String.mk ('c' :: 'a' :: 'l' :: 'c' :: '(' ::
          (ds ++ (if fs = [] then [] else '.' :: fs) ++ ['m', 's', ')'])),
          AExpr.num (((digitsVal (ds ++ fs) : ℕ) : ℚ) / 10 ^ fs.length)⟩ :
            CompiledExpression))
        = Except.ok (evaluateCompiledExpression (⟨String.mk ('c' :: 'a' :: 'l' :: 'c' :: '(' ::
          (ds ++ (if fs = [] then [] else '.' :: fs) ++ ['m', 's', ')'])),
          AExpr.num (((digitsVal (ds ++ fs) : ℕ) : ℚ) / 10 ^ fs.length)⟩ :
            CompiledExpression) (ExprContext.mk [])) from rfl]
    rw [evaluate_num _ _ _ hhash, value_ms]

theorem C3_unit_normalization_witness :
    ((parseExpression (String.mk ('c' :: 'a' :: 'l' :: 'c' :: '(' ::
        ((['1'] ++ (if (['5'] : List Char) = [] then [] else '.' :: ['5'])) ++ ['s', ')'])))).map
      (fun ce => evaluateCompiledExpression ce (ExprContext.mk []))
      = Except.ok (Except.ok (JSNum.finite (1000 * decimalVal ['1'] ['5'])))) ∧
    ((parseExpression (String.mk ('c' :: 'a' :: 'l' :: 'c' :: '(' ::
        ((['1'] ++ (if (['5'] : List Char) = [] then [] else '.' :: ['5'])) ++ ['m', 's', ')'])))).map
      (fun ce => evaluateCompiledExpression ce (ExprContext.mk []))
      = Except.ok (Except.ok (JSNum.finite (decimalVal ['1'] ['5'])))) :=
  C3_unit_normalization ['1'] ['5'] (by decide) (by decide) (by decide)

end MkVideo
